import Mathlib

/-!
Formal model of the pnk-merkle-drop repository core:
- merkle-tree/src/MerkleTree.ts (tree construction, proof retrieval, the
  verifier from MerkleTree.test.ts which mirrors OpenZeppelin MerkleProof),
- snapshots/src/create-snapshot-from-block-limits.js (per-address weighted
  average stake over a block interval, claim allocation, snapshot assembly),
- snapshots/src/helpers/subgraph-events.js (event normalization).

Buffers are modelled as lists of bytes (List Nat); keccak256 and
soliditySha3 are abstract hash parameters (H, Hs, mkLeaf), since every
property below is about the surrounding algebra, not the hash itself.
BigNumber is modelled as Int; BigNumber.div truncates toward zero, which is
Int.tdiv, and throwing operations return Option (none = thrown error).
-/

namespace PnkDrop

/-- Byte buffer, as in Node's Buffer: a list of bytes. -/
abbrev Buffer := List Nat

/-- Buffer.compare: lexicographic byte-wise comparison; on a common prefix the
shorter buffer is smaller. -/
def bufCompare : Buffer → Buffer → Ordering
  | [], [] => Ordering.eq
  | [], _ :: _ => Ordering.lt
  | _ :: _, [] => Ordering.gt
  | a :: as, b :: bs =>
    if a < b then Ordering.lt
    else if b < a then Ordering.gt
    else bufCompare as bs

/-- Boolean test for Buffer.compare(a, b) <= 0. -/
def bufLe (a b : Buffer) : Bool :=
  match bufCompare a b with
  | Ordering.gt => false
  | _ => true

/-- Strict byte order on buffers (Buffer.compare(a, b) < 0), as a Prop. -/
def bufLtP (a b : Buffer) : Prop := bufCompare a b = Ordering.lt

instance (a b : Buffer) : Decidable (bufLtP a b) := by
  unfold bufLtP; infer_instance

/-- Removal of adjacent equal elements, as MerkleTree.bufDedup does with its
filter over (idx, previous element); on a sorted list this removes all
duplicates. -/
def dedupAdj {α : Type} [DecidableEq α] : List α → List α
  | [] => []
  | [a] => [a]
  | a :: b :: rest => if a = b then dedupAdj (b :: rest) else a :: dedupAdj (b :: rest)

/-- JavaScript Array.prototype.slice(b, e): elements at indices b .. e-1. -/
def jsSlice {α : Type} (b e : Nat) (l : List α) : List α := (l.take e).drop b

/-- The snapshot code's sumAll = reduce((acc, x) => acc.add(x), BigNumber.from(0)). -/
def sumAll (l : List Int) : Int := l.foldl (· + ·) 0

/-- Ramda findLastIndex, returning none instead of -1. -/
def findLastIndex {α : Type} (p : α → Bool) : List α → Option Nat
  | [] => none
  | a :: as =>
    match findLastIndex p as with
    | some i => some (i + 1)
    | none => if p a then some 0 else none

/-- First index whose element satisfies p, as the scanning loop in
MerkleTree.bufIndexOf; none instead of -1. -/
def findFirstIndex {α : Type} (p : α → Bool) : List α → Option Nat
  | [] => none
  | a :: as => if p a then some 0 else (findFirstIndex p as).map (· + 1)

/-- Insertion of an element into a sorted list, placing it before the first
element it compares less-or-equal to. -/
def insertSorted {α : Type} (le : α → α → Bool) (a : α) : List α → List α
  | [] => [a]
  | b :: l => if le a b then a :: b :: l else b :: insertSorted le a l

/-- Stable comparison sort, modelling Array.prototype.sort and ramda sortBy:
for a total preorder comparator every stable sort computes the same list. -/
def sortBy {α : Type} (le : α → α → Bool) (l : List α) : List α :=
  l.foldr (insertSorted le) []

/-- BigNumber division: truncation toward zero; division by zero throws. -/
def bnDiv (a b : Int) : Option Int :=
  if b = 0 then none else some (Int.tdiv a b)

/-- Boolean ≤ on Int, used as a sort comparator. -/
def intLeB (a b : Int) : Bool := decide (a ≤ b)

/- ===== MerkleTree.ts ===== -/

/-- MerkleTree.sortAndConcat restricted to the two-argument form used by
combinedHash: a stable sort of [first, second] by Buffer.compare, then
concatenation. -/
def sortAndConcat (first second : Buffer) : Buffer :=
  if bufCompare first second = Ordering.gt then second ++ first else first ++ second

/-- MerkleTree.combinedHash: null-tolerant hash of a pair of nodes; H stands
for keccak256. -/
def combinedHash (H : Buffer → Buffer) : Option Buffer → Option Buffer → Option Buffer
  | none, second => second
  | some first, none => some first
  | some first, some second => some (H (sortAndConcat first second))

/-- MerkleTree.getNextLayer: combine elements two by two; a trailing unpaired
element is carried up unchanged (combinedHash with an undefined partner). -/
def getNextLayer (H : Buffer → Buffer) : List Buffer → List Buffer
  | [] => []
  | [a] =>
    match combinedHash H (some a) none with
    | some x => [x]
    | none => []
  | a :: b :: rest =>
    match combinedHash H (some a) (some b) with
    | some x => x :: getNextLayer H rest
    | none => getNextLayer H rest

/-- The while loop of MerkleTree.getLayers, with an explicit iteration bound:
each pass at least halves a layer of length two or more, so a bound equal to
the element count never runs out (buildLayers_unfold below proves the loop
equation, bound-free). -/
def buildLayersFuel (H : Buffer → Buffer) : Nat → List Buffer → List (List Buffer)
  | 0, l => [l]
  | Nat.succ n, l =>
    if l.length ≤ 1 then [l] else l :: buildLayersFuel H n (getNextLayer H l)

/-- MerkleTree.getLayers loop applied to a non-degenerate element list. -/
def buildLayers (H : Buffer → Buffer) (l : List Buffer) : List (List Buffer) :=
  buildLayersFuel H l.length l

/-- MerkleTree.getLayers: zero elements give the sentinel layer holding the
empty buffer; otherwise iterate getNextLayer up to the root. -/
def getLayers (H : Buffer → Buffer) (elements : List Buffer) : List (List Buffer) :=
  if elements = [] then [[([] : Buffer)]] else buildLayers H elements

/-- The constructor of MerkleTree: decode/filter is outside the model (leaves
arrive as byte buffers), then sort by Buffer.compare and deduplicate. -/
def elementsOf (leafNodes : List Buffer) : List Buffer :=
  dedupAdj (sortBy bufLe leafNodes)

/-- The layers field of a constructed MerkleTree. -/
def treeLayers (H : Buffer → Buffer) (leafNodes : List Buffer) : List (List Buffer) :=
  getLayers H (elementsOf leafNodes)

/-- MerkleTree.getRoot: last layer, first element. -/
def getRoot (H : Buffer → Buffer) (leafNodes : List Buffer) : Buffer :=
  ((treeLayers H leafNodes).getLastD []).headD []

/-- Modelled from the spec: getWidth is called by createSnapshot but absent
from merkle-tree/src in this tree; the spec defines width as the leaf
count of the built tree. -/
def getWidth (leafNodes : List Buffer) : Nat := (elementsOf leafNodes).length

/-- Modelled from the spec: getHeight is called by createSnapshot but absent
from merkle-tree/src in this tree; the spec defines height as the layer
count of the built tree. -/
def getHeight (H : Buffer → Buffer) (leafNodes : List Buffer) : Nat :=
  (treeLayers H leafNodes).length

/-- MerkleTree.getPairElement: the sibling index at a layer, none when the
sibling position falls outside the layer. -/
def getPairElement (idx : Nat) (layer : List Buffer) : Option Buffer :=
  layer[if idx % 2 = 0 then idx + 1 else idx - 1]?

/-- The reduce over this.layers inside MerkleTree.getProof: collect the
sibling at each layer, halving the index as the layers ascend. -/
def getProofAux (idx : Nat) : List (List Buffer) → List Buffer
  | [] => []
  | layer :: rest =>
    match getPairElement idx layer with
    | some pairElement => pairElement :: getProofAux (idx / 2) rest
    | none => getProofAux (idx / 2) rest

/-- MerkleTree.bufIndexOf: an element that is not a 32-byte value is first
hashed (Hs stands for keccakFromString over the hex rendering), then looked
up by byte equality. -/
def bufIndexOf (Hs : Buffer → Buffer) (el : Buffer) (arr : List Buffer) : Option Nat :=
  let hash := if el.length ≠ 32 then Hs el else el
  findFirstIndex (fun x => x == hash) arr

/-- MerkleTree.getProof: none models the thrown "Element does not exist in
Merkle tree". -/
def getProof (H Hs : Buffer → Buffer) (leafNodes : List Buffer) (el : Buffer) :
    Option (List Buffer) :=
  match bufIndexOf Hs el (elementsOf leafNodes) with
  | none => none
  | some idx => some (getProofAux idx (treeLayers H leafNodes))

/-- One step of the verifier in MerkleTree.test.ts: hash the running value
with the proof element in ascending byte order. -/
def verifyStep (H : Buffer → Buffer) (computedHash proofElement : Buffer) : Buffer :=
  if bufLe computedHash proofElement
  then H (computedHash ++ proofElement)
  else H (proofElement ++ computedHash)

/-- The verify function of MerkleTree.test.ts (OpenZeppelin MerkleProof):
fold the proof from the leaf and compare with the root. -/
def verify (H : Buffer → Buffer) (proof : List Buffer) (root leaf : Buffer) : Bool :=
  decide (proof.foldl (verifyStep H) leaf = root)

/- ===== create-snapshot-from-block-limits.js ===== -/

/-- A normalized StakeSet event (withRelevantProps output shape). -/
structure Event where
  blockNumber : Int
  logIndex : Int
  totalStake : Int
deriving DecidableEq

/-- Default event, standing for JavaScript undefined in positions the code
never reads. -/
def defaultEvent : Event := ⟨0, 0, 0⟩

/-- The fake event prepended when the address had no stake before the
interval: value zero at block -1. -/
def fakeEvent : Event := ⟨-1, -1, 0⟩

/-- Number.MAX_SAFE_INTEGER. -/
def maxSafeInteger : Int := 9007199254740991

/-- Ordering contract of getStakeSets: events arrive sorted by block number
and, within a block, by log index. -/
def eventLexLe (a b : Event) : Prop :=
  a.blockNumber < b.blockNumber ∨
    (a.blockNumber = b.blockNumber ∧ a.logIndex ≤ b.logIndex)

instance (a b : Event) : Decidable (eventLexLe a b) := by
  unfold eventLexLe
  infer_instance

/-- One step of the reconstructed step function. -/
structure Segment where
  weight : Int
  value : Int
deriving DecidableEq

/-- Ramda clamp(startBlock, endBlock), the withinRange helper. -/
def withinRange (s e x : Int) : Int :=
  if x < s then s else if e < x then e else x

/-- The getWeightFromDuration helper: clamped width between two block
heights. -/
def getWeightFromDuration (s e endBn startBn : Int) : Int :=
  withinRange s e endBn - withinRange s e startBn

/-- The toStepFunction reduce: each consecutive pair of events yields one
segment weighted by the clamped distance between their block heights,
valued at the earlier event's stake. -/
def toStepFunction (s e : Int) : List Event → List Segment
  | [] => []
  | [_] => []
  | p :: q :: rest =>
    ⟨getWeightFromDuration s e q.blockNumber p.blockNumber, p.totalStake⟩ ::
      toStepFunction s e (q :: rest)

/-- Comparator for sortBy(prop("logIndex")). -/
def liLeB (a b : Event) : Bool := decide (a.logIndex ≤ b.logIndex)

/-- Comparator for sorting events by blockNumber. -/
def bnLeB (a b : Event) : Bool := decide (a.blockNumber ≤ b.blockNumber)

/-- The getLastestInBlock helper: last of a stable sort by logIndex. -/
def latestInBlock (g : List Event) : Event :=
  (sortBy liLeB g).getLastD defaultEvent

/-- Distinct block numbers of a list of events in ascending order. Together
with latestInBlock over each per-block group this models the chain
groupBy(blockNumber) - map(getLastestInBlock) - values - sortBy(blockNumber):
group keys are distinct, so sorting the grouped values by blockNumber is the
same as walking the distinct keys in ascending order. -/
def sortedKeys (p : List Event) : List Int :=
  dedupAdj (sortBy intLeB (p.map Event.blockNumber))

/-- Per-block dedup of events: for every distinct block number in ascending
order, keep the event of that block with the highest log index. -/
def dedupByBlock (p : List Event) : List Event :=
  (sortedKeys p).map (fun b => latestInBlock (p.filter (fun ev => ev.blockNumber == b)))

/-- The appendFinalEventIfRequired helper: close the last segment with a fake
event at MAX_SAFE_INTEGER carrying the last stake. -/
def appendFinal (l : List Event) : List Event :=
  match l.getLast? with
  | none => l
  | some lastEvent => l ++ [⟨maxSafeInteger, maxSafeInteger, lastEvent.totalStake⟩]

/-- The prependFakeEventIfRequired / getRelevantEvents pair: j is the last
index (in evs) with blockNumber < endBlock, fi the last index with
blockNumber < startBlock. -/
def relevantEvents (j : Nat) (fi : Option Nat) (evs : List Event) : List Event :=
  match fi with
  | none => jsSlice 0 (j + 2) (fakeEvent :: evs)
  | some i => jsSlice i (j + 1) evs

/-- The normalize pipeline inside getAverageStake. -/
def normalizeEvents (j : Nat) (fi : Option Nat) (evs : List Event) : List Event :=
  appendFinal (dedupByBlock (relevantEvents j fi evs))

/-- Total weight of a segment list (getTotalWeight). -/
def totalWeight (segs : List Segment) : Int := sumAll (segs.map Segment.weight)

/-- The getWeightedAverage function: floor-toward-zero of
sum(value * weight) / sum(weight); none models the BigNumber division-by-zero
throw. -/
def getWeightedAverage (segs : List Segment) : Option Int :=
  bnDiv (sumAll (segs.map (fun sg => sg.value * sg.weight))) (totalWeight segs)

/-- The getAverageStake closure for one address over [startBlock, endBlock],
with s = startBlock and e = endBlock. -/
def getAverageStake (s e : Int) (evs : List Event) : Option Int :=
  match findLastIndex (fun ev => decide (ev.blockNumber < e)) evs with
  | none => some 0
  | some j =>
    let events := normalizeEvents j (findLastIndex (fun ev => decide (ev.blockNumber < s)) evs) evs
    if events.length = 0 then some 0
    else if events.length = 1 then some ((events.headD defaultEvent).totalStake)
    else getWeightedAverage (toStepFunction s e events)

/-- The step segments the code builds for an address (empty when no event
lies strictly before e, since getAverageStake then returns before building
any segment). -/
def stepSegments (s e : Int) (evs : List Event) : List Segment :=
  match findLastIndex (fun ev => decide (ev.blockNumber < e)) evs with
  | none => []
  | some j =>
    toStepFunction s e
      (normalizeEvents j (findLastIndex (fun ev => decide (ev.blockNumber < s)) evs) evs)

/-- A raw subgraph event as seen by withRelevantProps: the parsed
_newTotalStake argument may be absent. -/
structure RawEvent where
  blockNumber : Int
  logIndex : Int
  newTotalStake : Option Int
deriving DecidableEq

/-- The withRelevantProps projection: a missing _newTotalStake is replaced by
BigNumber.from(0) via the JavaScript || operator. -/
def withRelevantProps (ev : RawEvent) : Event :=
  ⟨ev.blockNumber, ev.logIndex, ev.newTotalStake.getD 0⟩

/-- The getClaimValueFromAmounts function:
stake.mul(droppedAmount).div(averageTotalStaked). -/
def getClaimValueFromAmounts (droppedAmount averageTotalStaked stake : Int) : Option Int :=
  bnDiv (stake * droppedAmount) averageTotalStaked

/-- Map whose element computation may throw: the whole computation throws as
soon as one element does. -/
def mapOption {α β : Type} (f : α → Option β) : List α → Option (List β)
  | [] => some []
  | a :: l =>
    match f a with
    | none => none
    | some b =>
      match mapOption f l with
      | none => none
      | some bs => some (b :: bs)

/-- The RATE_MULTIPLIER constant: calculations in terms of full tokens. -/
def RATE_MULTIPLIER : Int := 1000000000000000000

/-- The getRateWithMultiplier function:
droppedAmount.mul(RATE_MULTIPLIER).div(averageTotalStaked); the division
throws when the total average staked is zero. -/
def getRateWithMultiplier (droppedAmount averageTotalStaked : Int) : Option Int :=
  bnDiv (droppedAmount * RATE_MULTIPLIER) averageTotalStaked

/-- The toBasisPoints function: divide the rate by 10 to the 14th. -/
def toBasisPoints (rateWithMultiplier : Int) : Option Int :=
  bnDiv rateWithMultiplier 100000000000000

/-- The merkleTree object plus totals returned by createSnapshot, together
with the basis-point rate feeding the APY figure (the floating-point APY
value itself, calculateApy's Number arithmetic, is outside the model). -/
structure Manifest where
  claims : List (String × Int)
  proofs : List (List Buffer)
  root : Buffer
  width : Nat
  height : Nat
  totalClaimable : Int
  rateBasisPoints : Int
deriving DecidableEq

/-- The allocation and tree-building tail of createSnapshot, starting from the
per-address averages (stakesByAddress): claim values, leaf nodes via mkLeaf
(MerkleTree.makeLeafNode), the tree, one proof per claim, and the rate
computation (getRateWithMultiplier then toBasisPoints) that runs before the
manifest object is returned: its division by averageTotalStaked throws when
the total average is zero. -/
def createSnapshotCore (H Hs : Buffer → Buffer) (mkLeaf : String → Int → Buffer)
    (droppedAmount : Int) (stakes : List (String × Int)) : Option Manifest :=
  let averageTotalStaked := sumAll (stakes.map Prod.snd)
  match mapOption
      (fun p => (getClaimValueFromAmounts droppedAmount averageTotalStaked p.2).map
        (fun c => (p.1, c))) stakes with
  | none => none
  | some claims =>
    let nodes := claims.map (fun p => mkLeaf p.1 p.2)
    match mapOption (fun node => getProof H Hs nodes node) nodes with
    | none => none
    | some proofs =>
      match getRateWithMultiplier droppedAmount averageTotalStaked with
      | none => none
      | some rateWithMultiplier =>
        match toBasisPoints rateWithMultiplier with
        | none => none
        | some rateBasisPoints =>
          some
            { claims := claims
              proofs := proofs
              root := getRoot H nodes
              width := getWidth nodes
              height := getHeight H nodes
              totalClaimable := sumAll (claims.map Prod.snd)
              rateBasisPoints := rateBasisPoints }

/- ===== concrete instances used to evaluate the model ===== -/

/-- Concrete stand-in hash for witnesses: prepends a tag byte. -/
def exH (l : Buffer) : Buffer := 9 :: l

/-- Concrete stand-in for the string-hash fallback of bufIndexOf. -/
def exHs (l : Buffer) : Buffer := 7 :: l

/-- Concrete stand-in leaf builder for witnesses. -/
def exMkLeaf (a : String) (v : Int) : Buffer := [a.length, v.natAbs]

/- ===== basic lemmas: buffer order ===== -/

theorem bufCompare_self : ∀ a : Buffer, bufCompare a a = Ordering.eq
  | [] => rfl
  | x :: xs => by simp [bufCompare, bufCompare_self xs]

theorem bufCompare_eq_eq : ∀ {a b : Buffer}, bufCompare a b = Ordering.eq → a = b
  | [], [], _ => rfl
  | [], _ :: _, h => by simp [bufCompare] at h
  | _ :: _, [], h => by simp [bufCompare] at h
  | x :: xs, y :: ys, h => by
    simp only [bufCompare] at h
    by_cases h1 : x < y
    · simp [h1] at h
    · by_cases h2 : y < x
      · simp [h1, h2] at h
      · have hxy : x = y := by omega
        simp only [h1, h2, if_false] at h
        rw [hxy, bufCompare_eq_eq h]

theorem bufCompare_swap : ∀ a b : Buffer, bufCompare b a = (bufCompare a b).swap
  | [], [] => rfl
  | [], _ :: _ => rfl
  | _ :: _, [] => rfl
  | x :: xs, y :: ys => by
    by_cases h1 : x < y
    · have h2 : ¬ y < x := by omega
      simp [bufCompare, h1, h2, Ordering.swap]
    · by_cases h2 : y < x
      · simp [bufCompare, h1, h2, Ordering.swap]
      · simp [bufCompare, h1, h2, bufCompare_swap xs ys]

theorem bufCompare_lt_trans : ∀ {a b c : Buffer}, bufCompare a b = Ordering.lt →
    bufCompare b c = Ordering.lt → bufCompare a c = Ordering.lt := by
  intro a
  induction a with
  | nil =>
    intro b c h1 h2
    cases b with
    | nil => simp [bufCompare] at h1
    | cons y ys =>
      cases c with
      | nil => simp [bufCompare] at h2
      | cons z zs => simp [bufCompare]
  | cons x xs ih =>
    intro b c h1 h2
    cases b with
    | nil => simp [bufCompare] at h1
    | cons y ys =>
      cases c with
      | nil => simp [bufCompare] at h2
      | cons z zs =>
        simp only [bufCompare] at h1 h2 ⊢
        by_cases hxy : x < y
        · by_cases hyz : y < z
          · have hxz : x < z := by omega
            simp [hxz]
          · by_cases hzy : z < y
            · simp [hyz, hzy] at h2
            · have hyzeq : y = z := by omega
              subst hyzeq
              simp [hxy]
        · by_cases hyx : y < x
          · simp [hxy, hyx] at h1
          · have hxyeq : x = y := by omega
            subst hxyeq
            simp only [hxy, if_false, lt_irrefl] at h1
            by_cases hxz : x < z
            · simp [hxz]
            · by_cases hzx : z < x
              · simp [hxz, hzx] at h2
              · have hxzeq : x = z := by omega
                subst hxzeq
                simp only [lt_irrefl, if_false] at h2 ⊢
                exact ih h1 h2

theorem bufLe_iff (a b : Buffer) : bufLe a b = true ↔ bufCompare a b ≠ Ordering.gt := by
  unfold bufLe
  cases h : bufCompare a b <;> simp

theorem bufLe_total (a b : Buffer) : (bufLe a b || bufLe b a) = true := by
  cases h : bufCompare a b with
  | lt => simp [bufLe, h]
  | eq => simp [bufLe, h]
  | gt =>
    have : bufCompare b a = Ordering.lt := by
      rw [bufCompare_swap, h]; rfl
    simp [bufLe, this]

theorem bufLe_trans {a b c : Buffer} (h1 : bufLe a b = true) (h2 : bufLe b c = true) :
    bufLe a c = true := by
  rw [bufLe_iff] at h1 h2 ⊢
  cases hab : bufCompare a b with
  | gt => exact absurd hab h1
  | eq =>
    rw [bufCompare_eq_eq hab]
    exact h2
  | lt =>
    cases hbc : bufCompare b c with
    | gt => exact absurd hbc h2
    | eq =>
      rw [← bufCompare_eq_eq hbc, hab]
      simp
    | lt =>
      rw [bufCompare_lt_trans hab hbc]
      simp

theorem bufLe_antisymm {a b : Buffer} (h1 : bufLe a b = true) (h2 : bufLe b a = true) :
    a = b := by
  rw [bufLe_iff] at h1 h2
  cases hab : bufCompare a b with
  | eq => exact bufCompare_eq_eq hab
  | gt => exact absurd hab h1
  | lt =>
    exfalso
    apply h2
    rw [bufCompare_swap, hab]
    rfl

theorem bufLtP_of_le_ne {a b : Buffer} (h1 : bufLe a b = true) (h2 : a ≠ b) : bufLtP a b := by
  rw [bufLe_iff] at h1
  cases hab : bufCompare a b with
  | lt => exact hab
  | eq => exact absurd (bufCompare_eq_eq hab) h2
  | gt => exact absurd hab h1

theorem bufLtP_asymm {a b : Buffer} (h : bufLtP a b) : ¬ bufLtP b a := by
  unfold bufLtP at *
  rw [bufCompare_swap, h]
  simp [Ordering.swap]

theorem bufLtP_irrefl (a : Buffer) : ¬ bufLtP a a := by
  unfold bufLtP
  rw [bufCompare_self]
  simp

/- ===== basic lemmas: dedupAdj ===== -/

theorem mem_dedupAdj {α : Type} [DecidableEq α] (x : α) : ∀ l, (x ∈ dedupAdj l ↔ x ∈ l)
  | [] => Iff.rfl
  | [_] => Iff.rfl
  | a :: b :: rest => by
    by_cases hab : a = b
    · subst hab
      rw [dedupAdj, if_pos rfl, mem_dedupAdj x (a :: rest)]
      simp
    · rw [dedupAdj, if_neg hab]
      simp [mem_dedupAdj x (b :: rest)]

theorem dedupAdj_ne_nil {α : Type} [DecidableEq α] : ∀ {l : List α}, l ≠ [] → dedupAdj l ≠ []
  | [], h => absurd rfl h
  | [a], _ => by simp [dedupAdj]
  | a :: b :: rest, _ => by
    by_cases hab : a = b
    · rw [dedupAdj, if_pos hab]
      exact dedupAdj_ne_nil (by simp)
    · rw [dedupAdj, if_neg hab]
      simp

theorem headD_dedupAdj {α : Type} [DecidableEq α] (d : α) : ∀ l, (dedupAdj l).headD d = l.headD d
  | [] => rfl
  | [_] => rfl
  | a :: b :: rest => by
    by_cases hab : a = b
    · subst hab
      rw [dedupAdj, if_pos rfl, headD_dedupAdj d (a :: rest)]
      simp
    · rw [dedupAdj, if_neg hab]
      simp

theorem getLastD_congr {α : Type} : ∀ {l : List α}, l ≠ [] → ∀ (d₁ d₂ : α),
    l.getLastD d₁ = l.getLastD d₂
  | [], h, _, _ => absurd rfl h
  | _ :: xs, _, d₁, d₂ => by rw [List.getLastD_cons, List.getLastD_cons]

theorem getLastD_dedupAdj {α : Type} [DecidableEq α] : ∀ (l : List α) (d : α),
    (dedupAdj l).getLastD d = l.getLastD d
  | [], _ => rfl
  | [_], _ => rfl
  | a :: b :: rest, d => by
    by_cases hab : a = b
    · subst hab
      rw [dedupAdj, if_pos rfl, getLastD_dedupAdj (a :: rest) d]
      simp [List.getLastD_cons]
    · rw [dedupAdj, if_neg hab]
      rw [List.getLastD_cons, List.getLastD_cons]
      rw [getLastD_dedupAdj (b :: rest) a]

theorem dedupAdj_pairwise {α : Type} [DecidableEq α] (le : α → α → Bool) (lt : α → α → Prop)
    (hanti : ∀ a b, le a b = true → le b a = true → a = b)
    (hconv : ∀ a b, le a b = true → a ≠ b → lt a b) :
    ∀ {l : List α}, l.Pairwise (fun a b => le a b = true) → (dedupAdj l).Pairwise lt
  | [], _ => by simp [dedupAdj]
  | [a], _ => by simp [dedupAdj]
  | a :: b :: rest, h => by
    rcases List.pairwise_cons.mp h with ⟨ha, hbr⟩
    by_cases hab : a = b
    · rw [dedupAdj, if_pos hab]
      exact dedupAdj_pairwise le lt hanti hconv hbr
    · rw [dedupAdj, if_neg hab]
      refine List.pairwise_cons.mpr ⟨?_, dedupAdj_pairwise le lt hanti hconv hbr⟩
      intro x hx
      have hxmem : x ∈ b :: rest := (mem_dedupAdj x (b :: rest)).mp hx
      refine hconv a x (ha x hxmem) ?_
      intro heq
      subst heq
      rcases List.mem_cons.mp hxmem with hxb | hxr
      · exact hab hxb
      · have h1 : le a b = true := ha b (List.mem_cons_self b rest)
        have h2 : le b a = true := (List.pairwise_cons.mp hbr).1 a hxr
        exact hab (hanti a b h1 h2)

/- ===== basic lemmas: insertion sort ===== -/

theorem sortBy_cons {α : Type} (le : α → α → Bool) (a : α) (l : List α) :
    sortBy le (a :: l) = insertSorted le a (sortBy le l) := rfl

theorem mem_insertSorted {α : Type} (le : α → α → Bool) (a x : α) :
    ∀ l, (x ∈ insertSorted le a l ↔ x = a ∨ x ∈ l)
  | [] => by simp [insertSorted]
  | b :: l => by
    by_cases h : le a b
    · simp [insertSorted, h]
    · simp [insertSorted, h, mem_insertSorted le a x l]
      tauto

theorem mem_sortBy {α : Type} (le : α → α → Bool) (x : α) : ∀ l, (x ∈ sortBy le l ↔ x ∈ l)
  | [] => Iff.rfl
  | a :: l => by
    rw [sortBy_cons, mem_insertSorted, mem_sortBy le x l]
    simp

theorem length_insertSorted {α : Type} (le : α → α → Bool) (a : α) :
    ∀ l : List α, (insertSorted le a l).length = l.length + 1
  | [] => rfl
  | b :: l => by
    by_cases h : le a b
    · simp [insertSorted, h]
    · simp [insertSorted, h, length_insertSorted le a l]

theorem length_sortBy {α : Type} (le : α → α → Bool) :
    ∀ l : List α, (sortBy le l).length = l.length
  | [] => rfl
  | a :: l => by
    rw [sortBy_cons, length_insertSorted, length_sortBy le l, List.length_cons]

theorem insertSorted_pairwise {α : Type} (le : α → α → Bool)
    (htrans : ∀ a b c, le a b = true → le b c = true → le a c = true)
    (htotal : ∀ a b, (le a b || le b a) = true) (a : α) :
    ∀ {l : List α}, l.Pairwise (fun x y => le x y = true) →
      (insertSorted le a l).Pairwise (fun x y => le x y = true)
  | [], _ => by simp [insertSorted]
  | b :: l, h => by
    rcases List.pairwise_cons.mp h with ⟨hb, hl⟩
    by_cases hab : le a b = true
    · rw [insertSorted, if_pos hab]
      refine List.pairwise_cons.mpr ⟨?_, h⟩
      intro x hx
      rcases List.mem_cons.mp hx with hxb | hxl
      · subst hxb; exact hab
      · exact htrans a b x hab (hb x hxl)
    · rw [insertSorted, if_neg hab]
      have hba : le b a = true := by
        have h1 := htotal a b
        have h2 : le a b = false := by
          cases hq : le a b
          · rfl
          · exact absurd hq hab
        rw [h2] at h1
        simpa using h1
      refine List.pairwise_cons.mpr ⟨?_, insertSorted_pairwise le htrans htotal a hl⟩
      intro x hx
      rcases (mem_insertSorted le a x l).mp hx with hxa | hxl
      · subst hxa; exact hba
      · exact hb x hxl

theorem sortBy_pairwise {α : Type} (le : α → α → Bool)
    (htrans : ∀ a b c, le a b = true → le b c = true → le a c = true)
    (htotal : ∀ a b, (le a b || le b a) = true) :
    ∀ l : List α, (sortBy le l).Pairwise (fun x y => le x y = true)
  | [] => by simp [sortBy]
  | a :: l => by
    rw [sortBy_cons]
    exact insertSorted_pairwise le htrans htotal a (sortBy_pairwise le htrans htotal l)

theorem sortBy_of_sorted {α : Type} {le : α → α → Bool} :
    ∀ {l : List α}, l.Pairwise (fun x y => le x y = true) → sortBy le l = l
  | [], _ => rfl
  | a :: l, h => by
    rcases List.pairwise_cons.mp h with ⟨ha, hl⟩
    rw [sortBy_cons, sortBy_of_sorted hl]
    cases l with
    | nil => rfl
    | cons b t => rw [insertSorted, if_pos (ha b (List.mem_cons_self b t))]

/- ===== basic lemmas: sums ===== -/

theorem foldl_add_shift : ∀ (l : List Int) (x : Int), l.foldl (· + ·) x = x + l.foldl (· + ·) 0
  | [], x => by simp
  | a :: l, x => by
    simp only [List.foldl_cons]
    rw [foldl_add_shift l (x + a), foldl_add_shift l (0 + a)]
    ring

theorem sumAll_nil : sumAll [] = 0 := rfl

theorem sumAll_cons (a : Int) (l : List Int) : sumAll (a :: l) = a + sumAll l := by
  unfold sumAll
  simp only [List.foldl_cons]
  rw [foldl_add_shift]
  ring

theorem sumAll_append : ∀ (l₁ l₂ : List Int), sumAll (l₁ ++ l₂) = sumAll l₁ + sumAll l₂
  | [], l₂ => by simp [sumAll_nil]
  | a :: l₁, l₂ => by
    rw [List.cons_append, sumAll_cons, sumAll_cons, sumAll_append l₁ l₂]
    ring

/- ===== basic lemmas: index search ===== -/

theorem findLastIndex_none {α : Type} {p : α → Bool} : ∀ {l : List α},
    findLastIndex p l = none → ∀ x ∈ l, p x = false
  | [], _, x, hx => absurd hx (List.not_mem_nil x)
  | a :: as, h, x, hx => by
    rw [findLastIndex] at h
    cases hfa : findLastIndex p as with
    | some k => rw [hfa] at h; exact absurd h (by simp)
    | none =>
      rw [hfa] at h
      by_cases hpa : p a = true
      · rw [if_pos hpa] at h
        exact absurd h (by simp)
      · rcases List.mem_cons.mp hx with hxa | hxs
        · subst hxa
          exact Bool.not_eq_true _ ▸ hpa
        · exact findLastIndex_none hfa x hxs

theorem findLastIndex_some {α : Type} {p : α → Bool} : ∀ {l : List α} {i : Nat},
    findLastIndex p l = some i → ∃ x, l[i]? = some x ∧ p x = true
  | [], i, h => by rw [findLastIndex] at h; exact absurd h (by simp)
  | a :: as, i, h => by
    rw [findLastIndex] at h
    cases hfa : findLastIndex p as with
    | some k =>
      rw [hfa] at h
      have hik : i = k + 1 := (Option.some_inj.mp h).symm
      subst hik
      obtain ⟨x, hx, hpx⟩ := findLastIndex_some hfa
      exact ⟨x, by simpa using hx, hpx⟩
    | none =>
      rw [hfa] at h
      by_cases hpa : p a = true
      · rw [if_pos hpa] at h
        have : i = 0 := (Option.some_inj.mp h).symm
        subst this
        exact ⟨a, by simp, hpa⟩
      · rw [if_neg hpa] at h
        exact absurd h (by simp)

theorem findLastIndex_ge {α : Type} {p : α → Bool} : ∀ {l : List α} {i : Nat},
    findLastIndex p l = some i → ∀ (k : Nat) (x : α), l[k]? = some x → p x = true → k ≤ i
  | [], i, h, _, _, _, _ => by rw [findLastIndex] at h; exact absurd h (by simp)
  | a :: as, i, h, k, x, hk, hpx => by
    rw [findLastIndex] at h
    cases hfa : findLastIndex p as with
    | some m =>
      rw [hfa] at h
      have him : i = m + 1 := (Option.some_inj.mp h).symm
      subst him
      cases k with
      | zero => omega
      | succ k2 =>
        have hk2 : as[k2]? = some x := by simpa using hk
        have := findLastIndex_ge hfa k2 x hk2 hpx
        omega
    | none =>
      rw [hfa] at h
      by_cases hpa : p a = true
      · rw [if_pos hpa] at h
        have hi0 : i = 0 := (Option.some_inj.mp h).symm
        subst hi0
        cases k with
        | zero => exact Nat.le_refl 0
        | succ k2 =>
          exfalso
          have hk2 : as[k2]? = some x := by simpa using hk
          have hmem : x ∈ as := by
            rw [List.mem_iff_getElem?]
            exact ⟨k2, hk2⟩
          have := findLastIndex_none hfa x hmem
          rw [hpx] at this
          exact Bool.true_eq_false.mp this
      · rw [if_neg hpa] at h
        exact absurd h (by simp)

theorem findLastIndex_ne_none {α : Type} {p : α → Bool} {l : List α} {x : α}
    (hx : x ∈ l) (hpx : p x = true) : findLastIndex p l ≠ none := by
  intro h
  have := findLastIndex_none h x hx
  rw [hpx] at this
  exact Bool.true_eq_false.mp this

theorem findFirstIndex_of_mem {α : Type} (p : α → Bool) : ∀ {l : List α} (x : α),
    x ∈ l → p x = true → ∃ i y, findFirstIndex p l = some i ∧ l[i]? = some y ∧ p y = true
  | [], x, hx, _ => absurd hx (List.not_mem_nil x)
  | a :: as, x, hx, hpx => by
    rw [findFirstIndex]
    by_cases hpa : p a = true
    · exact ⟨0, a, by simp [hpa], by simp, hpa⟩
    · have hxas : x ∈ as := by
        rcases List.mem_cons.mp hx with hxa | hxs
        · subst hxa; exact absurd hpx hpa
        · exact hxs
      obtain ⟨i, y, h1, h2, h3⟩ := findFirstIndex_of_mem p x hxas hpx
      refine ⟨i + 1, y, ?_, by simpa using h2, h3⟩
      rw [if_neg hpa, h1]
      rfl

/- ===== merkle lemmas: layer geometry ===== -/

theorem getNextLayer_length (H : Buffer → Buffer) :
    ∀ l : List Buffer, (getNextLayer H l).length = (l.length + 1) / 2
  | [] => by simp [getNextLayer]
  | [a] => by simp [getNextLayer, combinedHash]
  | a :: b :: rest => by
    show (H (sortAndConcat a b) :: getNextLayer H rest).length = _
    rw [List.length_cons, getNextLayer_length H rest]
    simp only [List.length_cons]
    omega

theorem getNextLayer_getElem? (H : Buffer → Buffer) :
    ∀ (l : List Buffer) (i : Nat),
      (getNextLayer H l)[i]? =
        match l[2 * i]?, l[2 * i + 1]? with
        | some a, some b => some (H (sortAndConcat a b))
        | some a, none => some a
        | none, _ => none
  | [], i => by simp [getNextLayer]
  | [a], 0 => by simp [getNextLayer, combinedHash]
  | [a], i + 1 => by
    have e1 : 2 * (i + 1) = (2 * i + 1) + 1 := by ring
    show ([a] : List Buffer)[i + 1]? = _
    rw [e1]
    simp
  | a :: b :: rest, 0 => by
    show (H (sortAndConcat a b) :: getNextLayer H rest)[0]? = _
    simp
  | a :: b :: rest, i + 1 => by
    have e1 : 2 * (i + 1) = (2 * i) + 2 := by ring
    have e2 : 2 * (i + 1) + 1 = (2 * i + 1) + 2 := by ring
    show (H (sortAndConcat a b) :: getNextLayer H rest)[i + 1]? = _
    rw [e2, e1, List.getElem?_cons_succ]
    have e3 : ∀ (x y : Buffer) (t : List Buffer) (k : Nat), (x :: y :: t)[k + 2]? = t[k]? := by
      intro x y t k
      rw [List.getElem?_cons_succ, List.getElem?_cons_succ]
    rw [e3, e3]
    exact getNextLayer_getElem? H rest i

theorem buildLayersFuel_small (H : Buffer → Buffer) :
    ∀ (n : Nat) (l : List Buffer), l.length ≤ 1 → buildLayersFuel H n l = [l]
  | 0, _, _ => rfl
  | Nat.succ _, l, h => by rw [buildLayersFuel, if_pos h]

theorem buildLayersFuel_congr (H : Buffer → Buffer) :
    ∀ (n m : Nat) (l : List Buffer), l.length ≤ n + 1 → l.length ≤ m + 1 →
      buildLayersFuel H n l = buildLayersFuel H m l
  | 0, m, l, hn, _ => by
    rw [buildLayersFuel_small H 0 l hn, buildLayersFuel_small H m l hn]
  | Nat.succ _, 0, l, _, hm => by
    rw [buildLayersFuel_small H _ l hm, buildLayersFuel_small H 0 l hm]
  | Nat.succ n, Nat.succ m, l, hn, hm => by
    by_cases h : l.length ≤ 1
    · rw [buildLayersFuel_small H _ l h, buildLayersFuel_small H _ l h]
    · rw [buildLayersFuel, if_neg h, buildLayersFuel, if_neg h]
      congr 1
      apply buildLayersFuel_congr H n m
      · rw [getNextLayer_length]
        omega
      · rw [getNextLayer_length]
        omega

theorem buildLayers_unfold (H : Buffer → Buffer) (l : List Buffer) :
    buildLayers H l =
      if l.length ≤ 1 then [l] else l :: buildLayers H (getNextLayer H l) := by
  by_cases h : l.length ≤ 1
  · rw [if_pos h]
    exact buildLayersFuel_small H l.length l h
  · rw [if_neg h]
    unfold buildLayers
    obtain ⟨k, hk⟩ : ∃ k, l.length = k + 1 := ⟨l.length - 1, by omega⟩
    rw [hk, buildLayersFuel, if_neg h]
    congr 1
    apply buildLayersFuel_congr
    · rw [getNextLayer_length]
      omega
    · exact Nat.le_succ _

theorem buildLayers_ne_nil (H : Buffer → Buffer) (l : List Buffer) : buildLayers H l ≠ [] := by
  rw [buildLayers_unfold]
  by_cases h : l.length ≤ 1 <;> simp [h]

/- ===== merkle lemmas: the sorted pairwise combination ===== -/

theorem verifyStep_eq_sortAndConcat (H : Buffer → Buffer) (a b : Buffer) :
    verifyStep H a b = H (sortAndConcat a b) := by
  cases h : bufCompare a b with
  | lt => simp [verifyStep, sortAndConcat, bufLe, h]
  | eq => simp [verifyStep, sortAndConcat, bufLe, h]
  | gt => simp [verifyStep, sortAndConcat, bufLe, h]

theorem verifyStep_eq_sortAndConcat_swap (H : Buffer → Buffer) (a b : Buffer) :
    verifyStep H b a = H (sortAndConcat a b) := by
  cases h : bufCompare a b with
  | lt =>
    have h2 : bufCompare b a = Ordering.gt := by rw [bufCompare_swap, h]; rfl
    simp [verifyStep, sortAndConcat, bufLe, h, h2]
  | eq =>
    have hab := bufCompare_eq_eq h
    subst hab
    simp [verifyStep, sortAndConcat, bufLe, bufCompare_self]
  | gt =>
    have h2 : bufCompare b a = Ordering.lt := by rw [bufCompare_swap, h]; rfl
    simp [verifyStep, sortAndConcat, bufLe, h, h2]

/- ===== merkle lemmas: proof chain reaches the root ===== -/

theorem foldl_getProofAux (H : Buffer → Buffer) (l : List Buffer) (i : Nat) (a : Buffer)
    (ha : l[i]? = some a) :
    List.foldl (verifyStep H) a (getProofAux i (buildLayers H l)) =
      ((buildLayers H l).getLastD []).headD [] := by
  have hi : i < l.length := (List.getElem?_eq_some.mp ha).1
  by_cases hlen : l.length ≤ 1
  · obtain ⟨x, rfl⟩ : ∃ x, l = [x] := by
      cases l with
      | nil => simp at hi
      | cons x xs =>
        cases xs with
        | nil => exact ⟨x, rfl⟩
        | cons y ys => simp at hlen
    have hi0 : i = 0 := by simp at hi; omega
    subst hi0
    have hax : a = x := by
      simp at ha
      exact ha.symm
    subst hax
    rw [buildLayers_unfold, if_pos hlen]
    simp [getProofAux, getPairElement]
  · rw [buildLayers_unfold, if_neg hlen]
    rw [getProofAux]
    have hrhs : (((l :: buildLayers H (getNextLayer H l)).getLastD []).headD []) =
        (((buildLayers H (getNextLayer H l)).getLastD []).headD []) := by
      rw [List.getLastD_cons]
      rw [getLastD_congr (buildLayers_ne_nil H (getNextLayer H l)) l []]
    rcases Nat.mod_two_eq_zero_or_one i with hpar | hpar
    · -- even index: the sibling is at i + 1
      have hpair : getPairElement i l = l[i + 1]? := by
        rw [getPairElement, if_pos hpar]
      cases hsib : l[i + 1]? with
      | some b =>
        rw [hpair, hsib]
        have hl2 : (getNextLayer H l)[i / 2]? = some (H (sortAndConcat a b)) := by
          rw [getNextLayer_getElem?]
          have e1 : 2 * (i / 2) = i := by omega
          rw [e1, ha, hsib]
        rw [List.foldl_cons, verifyStep_eq_sortAndConcat]
        rw [foldl_getProofAux H (getNextLayer H l) (i / 2) _ hl2]
        exact hrhs.symm
      | none =>
        rw [hpair, hsib]
        have hl2 : (getNextLayer H l)[i / 2]? = some a := by
          rw [getNextLayer_getElem?]
          have e1 : 2 * (i / 2) = i := by omega
          rw [e1, ha, hsib]
        rw [foldl_getProofAux H (getNextLayer H l) (i / 2) _ hl2]
        exact hrhs.symm
    · -- odd index: the sibling is at i - 1, which always exists
      have hpair : getPairElement i l = l[i - 1]? := by
        rw [getPairElement, if_neg (by omega)]
      have him : i - 1 < l.length := by omega
      cases hsib : l[i - 1]? with
      | none =>
        exfalso
        rw [List.getElem?_eq_getElem him] at hsib
        exact Option.noConfusion hsib
      | some b =>
        rw [hpair, hsib]
        have hl2 : (getNextLayer H l)[i / 2]? = some (H (sortAndConcat b a)) := by
          rw [getNextLayer_getElem?]
          have e1 : 2 * (i / 2) = i - 1 := by omega
          have e2 : 2 * (i / 2) + 1 = i := by omega
          rw [e2, e1, ha, hsib]
        rw [List.foldl_cons, verifyStep_eq_sortAndConcat_swap]
        rw [foldl_getProofAux H (getNextLayer H l) (i / 2) _ hl2]
        exact hrhs.symm
termination_by l.length
decreasing_by
  all_goals
    simp_wf
    rw [getNextLayer_length]
    omega

/- ===== merkle lemmas: elements are the strictly sorted leaf set ===== -/

theorem mem_elementsOf (x : Buffer) (l : List Buffer) : x ∈ elementsOf l ↔ x ∈ l := by
  unfold elementsOf
  rw [mem_dedupAdj, mem_sortBy]

theorem elementsOf_pairwise (l : List Buffer) : (elementsOf l).Pairwise bufLtP := by
  unfold elementsOf
  refine dedupAdj_pairwise bufLe bufLtP ?_ ?_ ?_
  · exact fun a b h1 h2 => bufLe_antisymm h1 h2
  · exact fun a b h1 h2 => bufLtP_of_le_ne h1 h2
  · exact sortBy_pairwise bufLe (fun a b c h1 h2 => bufLe_trans h1 h2) bufLe_total l

theorem strict_sorted_ext : ∀ {l₁ l₂ : List Buffer}, l₁.Pairwise bufLtP →
    l₂.Pairwise bufLtP → (∀ x, x ∈ l₁ ↔ x ∈ l₂) → l₁ = l₂
  | [], [], _, _, _ => rfl
  | [], b :: t₂, _, _, hmem =>
    absurd ((hmem b).mpr (List.mem_cons_self b t₂)) (List.not_mem_nil b)
  | a :: t₁, [], _, _, hmem =>
    absurd ((hmem a).mp (List.mem_cons_self a t₁)) (List.not_mem_nil a)
  | a :: t₁, b :: t₂, h₁, h₂, hmem => by
    rcases List.pairwise_cons.mp h₁ with ⟨ha, ht₁⟩
    rcases List.pairwise_cons.mp h₂ with ⟨hb, ht₂⟩
    have hab : a = b := by
      have haIn : a ∈ b :: t₂ := (hmem a).mp (List.mem_cons_self a t₁)
      have hbIn : b ∈ a :: t₁ := (hmem b).mpr (List.mem_cons_self b t₂)
      rcases List.mem_cons.mp haIn with h | h
      · exact h
      · rcases List.mem_cons.mp hbIn with h2 | h2
        · exact h2.symm
        · exact absurd (ha b h2) (bufLtP_asymm (hb a h))
    subst hab
    have htail : ∀ x, x ∈ t₁ ↔ x ∈ t₂ := by
      intro x
      constructor
      · intro hx
        have hx2 : x ∈ a :: t₂ := (hmem x).mp (List.mem_cons_of_mem a hx)
        rcases List.mem_cons.mp hx2 with hxa | h
        · subst hxa
          exact absurd (ha x hx) (bufLtP_irrefl x)
        · exact h
      · intro hx
        have hx2 : x ∈ a :: t₁ := (hmem x).mpr (List.mem_cons_of_mem a hx)
        rcases List.mem_cons.mp hx2 with hxa | h
        · subst hxa
          exact absurd (hb x hx) (bufLtP_irrefl x)
        · exact h
    rw [strict_sorted_ext ht₁ ht₂ htail]

theorem elementsOf_eq_of_same_mem {l₁ l₂ : List Buffer} (h : ∀ x, x ∈ l₁ ↔ x ∈ l₂) :
    elementsOf l₁ = elementsOf l₂ :=
  strict_sorted_ext (elementsOf_pairwise l₁) (elementsOf_pairwise l₂)
    (fun x => by rw [mem_elementsOf, mem_elementsOf]; exact h x)

/- ===== claim C1 ===== -/

/-- C1: for every leaf hash present in the tree, getProof succeeds and the
verifier of MerkleTree.test.ts recomputes the root from the leaf through
that proof, hashing each pair in ascending byte order. -/
theorem claim1_merkle_roundtrip (H Hs : Buffer → Buffer) (leafNodes : List Buffer)
    (el : Buffer) (hmem : el ∈ elementsOf leafNodes) (hlen : el.length = 32) :
    ∃ proof, getProof H Hs leafNodes el = some proof ∧
      verify H proof (getRoot H leafNodes) el = true := by
  obtain ⟨i, y, h1, h2, h3⟩ :=
    findFirstIndex_of_mem (fun x => x == el) el hmem (by simp)
  have hy : y = el := by simpa using h3
  rw [hy] at h2
  have hne : elementsOf leafNodes ≠ [] := by
    intro h0
    rw [h0] at hmem
    exact (List.not_mem_nil el) hmem
  refine ⟨getProofAux i (treeLayers H leafNodes), ?_, ?_⟩
  · simp only [getProof, bufIndexOf, hlen]
    simp only [ne_eq, not_true_eq_false, if_false, h1]
  · rw [verify, decide_eq_true_iff]
    unfold getRoot treeLayers getLayers
    rw [if_neg hne]
    exact foldl_getProofAux H (elementsOf leafNodes) i el h2

/-- C1 witness: a two-leaf tree where the round trip is evaluated. -/
theorem claim1_witness :
    ∃ proof, getProof exH exHs [List.replicate 32 1, List.replicate 32 2]
        (List.replicate 32 1) = some proof ∧
      verify exH proof (getRoot exH [List.replicate 32 1, List.replicate 32 2])
        (List.replicate 32 1) = true :=
  claim1_merkle_roundtrip exH exHs [List.replicate 32 1, List.replicate 32 2]
    (List.replicate 32 1) (by decide) (by decide)

/- ===== claim C4 ===== -/

/-- C4: the root of the built tree depends only on the set of leaf hashes:
any two leaf lists with the same members, in any order and with any
duplication, produce the same root. -/
theorem claim4_root_depends_only_on_leaf_set (H : Buffer → Buffer) (l₁ l₂ : List Buffer)
    (h : ∀ x, x ∈ l₁ ↔ x ∈ l₂) : getRoot H l₁ = getRoot H l₂ := by
  unfold getRoot treeLayers
  rw [elementsOf_eq_of_same_mem h]

/-- C4 witness: a permuted list with a duplicate yields the same root. -/
theorem claim4_witness :
    getRoot exH [[1], [2], [1]] = getRoot exH [[2], [1]] :=
  claim4_root_depends_only_on_leaf_set exH [[1], [2], [1]] [[2], [1]]
    (by intro x; simp [List.mem_cons]; tauto)

/- ===== claim C10 ===== -/

/-- C10: a tree over exactly one distinct leaf has that leaf as its root (no
hash applied on the way up), getProof for it returns the empty proof, and
verification of the empty proof is the bare comparison of leaf and root. -/
theorem claim10_singleton_tree (H Hs : Buffer → Buffer) (leafNodes : List Buffer)
    (a : Buffer) (helems : elementsOf leafNodes = [a]) (hlen : a.length = 32) :
    getRoot H leafNodes = a ∧ getProof H Hs leafNodes a = some [] ∧
      verify H [] (getRoot H leafNodes) a = true := by
  have hroot : getRoot H leafNodes = a := by
    unfold getRoot treeLayers getLayers
    rw [helems, if_neg (by simp), buildLayers_unfold, if_pos (by simp)]
    simp
  refine ⟨hroot, ?_, ?_⟩
  · simp only [getProof, bufIndexOf, hlen, ne_eq, not_true_eq_false, if_false]
    rw [helems]
    have hfind : findFirstIndex (fun x => x == a) [a] = some 0 := by
      simp [findFirstIndex]
    rw [hfind]
    unfold treeLayers getLayers
    rw [helems, if_neg (by simp), buildLayers_unfold, if_pos (by simp)]
    simp [getProofAux, getPairElement]
  · rw [hroot, verify, decide_eq_true_iff]
    rfl

/-- C10 witness: the one-leaf tree evaluated. -/
theorem claim10_witness :
    getRoot exH [List.replicate 32 5] = List.replicate 32 5 ∧
      getProof exH exHs [List.replicate 32 5] (List.replicate 32 5) = some [] ∧
      verify exH [] (getRoot exH [List.replicate 32 5]) (List.replicate 32 5) = true :=
  claim10_singleton_tree exH exHs [List.replicate 32 5] (List.replicate 32 5)
    (by decide) (by decide)

/- ===== claim C8 ===== -/

/-- C8 counterexample: with zero leaves the root is the empty buffer itself,
not the hash of an empty value: for the concrete hash exH (which, like
keccak256, maps the empty buffer to a nonempty digest) the claimed equality
root = hash(empty) fails. -/
theorem claim8_counterexample :
    ¬ (getRoot exH [] = exH [] ∧ getWidth ([] : List Buffer) = 0 ∧
        getHeight exH [] = 1) := by
  decide

/-- C8 amended: a tree built from zero leaves has the empty buffer as its
root sentinel (no hash function is applied to it), reported width 0 and
reported height 1. -/
theorem claim8_empty_tree (H : Buffer → Buffer) :
    getRoot H [] = ([] : Buffer) ∧ getWidth ([] : List Buffer) = 0 ∧
      getHeight H [] = 1 :=
  ⟨rfl, rfl, rfl⟩

/- ===== snapshot lemmas: list utilities ===== -/

theorem headD_append_left {α : Type} : ∀ {l : List α}, l ≠ [] → ∀ (l₂ : List α) (d : α),
    (l ++ l₂).headD d = l.headD d
  | [], h, _, _ => absurd rfl h
  | _ :: _, _, _, _ => rfl

theorem getLastD_append_single {α : Type} : ∀ (l : List α) (x d : α),
    (l ++ [x]).getLastD d = x := by
  intro l x d
  rw [List.getLastD_eq_getLast?, List.getLast?_append]
  rfl

theorem headD_map {α β : Type} (f : α → β) : ∀ {l : List α}, l ≠ [] → ∀ (d : β) (d₂ : α),
    (l.map f).headD d = f (l.headD d₂)
  | [], h, _, _ => absurd rfl h
  | _ :: _, _, _, _ => rfl

theorem getLastD_map {α β : Type} (f : α → β) : ∀ {l : List α}, l ≠ [] → ∀ (d : β) (d₂ : α),
    (l.map f).getLastD d = f (l.getLastD d₂)
  | [], h, _, _ => absurd rfl h
  | [_], _, _, _ => rfl
  | a :: b :: t, _, d, d₂ => by
    rw [List.map_cons, List.getLastD_cons, List.getLastD_cons]
    exact getLastD_map f (by simp) (f a) a

theorem getLastD_mem {α : Type} : ∀ {l : List α}, l ≠ [] → ∀ d : α, l.getLastD d ∈ l
  | [], h, _ => absurd rfl h
  | [a], _, d => by simp
  | a :: b :: t, _, d => by
    rw [List.getLastD_cons]
    exact List.mem_cons_of_mem a (getLastD_mem (by simp) b)

theorem headD_mem {α : Type} : ∀ {l : List α}, l ≠ [] → ∀ d : α, l.headD d ∈ l
  | [], h, _ => absurd rfl h
  | a :: t, _, d => List.mem_cons_self a t

theorem sortBy_ne_nil {α : Type} (le : α → α → Bool) {l : List α} (h : l ≠ []) :
    sortBy le l ≠ [] := by
  intro h0
  have := length_sortBy le l
  rw [h0] at this
  have : l.length = 0 := by simpa using this.symm
  exact h (List.length_eq_zero.mp this)

theorem getLast?_cons_of_ne_nil {α : Type} : ∀ {l : List α}, l ≠ [] → ∀ a : α,
    (a :: l).getLast? = l.getLast?
  | [], h, _ => absurd rfl h
  | _ :: _, _, _ => List.getLast?_cons_cons

theorem getLast?_filter (p : Event → Bool) : ∀ (l : List Event) (x : Event),
    l.getLast? = some x → p x = true → (l.filter p).getLast? = some x
  | [], x, h, _ => by simp at h
  | [a], x, h, hp => by
    simp at h
    subst h
    simp [List.filter, hp]
  | a :: b :: t, x, h, hp => by
    rw [List.getLast?_cons_cons] at h
    have hrec := getLast?_filter p (b :: t) x h hp
    have hne : (b :: t).filter p ≠ [] := by
      intro h0
      rw [h0] at hrec
      simp at hrec
    rw [List.filter_cons]
    by_cases hpa : p a = true
    · rw [if_pos hpa, getLast?_cons_of_ne_nil hne]
      exact hrec
    · rw [if_neg hpa]
      exact hrec

theorem pairwise_headD_le {α : Type} (leP : α → α → Prop) (hrefl : ∀ a, leP a a) :
    ∀ {l : List α}, l.Pairwise leP → ∀ (d : α), ∀ x ∈ l, leP (l.headD d) x
  | [], _, _, x, hx => absurd hx (List.not_mem_nil x)
  | a :: t, h, d, x, hx => by
    rcases List.mem_cons.mp hx with hxa | hxt
    · subst hxa
      exact hrefl x
    · exact List.rel_of_pairwise_cons h hxt

theorem pairwise_le_getLastD {α : Type} (leP : α → α → Prop) (hrefl : ∀ a, leP a a) :
    ∀ {l : List α}, l.Pairwise leP → ∀ (d : α), ∀ x ∈ l, leP x (l.getLastD d)
  | [], _, _, x, hx => absurd hx (List.not_mem_nil x)
  | [a], _, d, x, hx => by
    simp at hx
    subst hx
    simp [hrefl]
  | a :: b :: t, h, d, x, hx => by
    rw [List.getLastD_cons]
    rcases List.pairwise_cons.mp h with ⟨ha, ht⟩
    rcases List.mem_cons.mp hx with hxa | hxt
    · have hlast : (b :: t).getLastD a ∈ b :: t := getLastD_mem (by simp) a
      have h2 := ha _ hlast
      rw [hxa]
      exact h2
    · exact pairwise_le_getLastD leP hrefl ht a x hxt

theorem mem_jsSlice {α : Type} {x : α} {b en : Nat} {l : List α} (h : x ∈ jsSlice b en l) :
    ∃ k, b ≤ k ∧ k < en ∧ l[k]? = some x := by
  unfold jsSlice at h
  rw [List.mem_iff_getElem?] at h
  obtain ⟨m, hm⟩ := h
  rw [List.getElem?_drop, List.getElem?_take] at hm
  by_cases hlt : b + m < en
  · rw [if_pos hlt] at hm
    exact ⟨b + m, Nat.le_add_right b m, hlt, hm⟩
  · rw [if_neg hlt] at hm
    exact absurd hm (by simp)

/- ===== snapshot lemmas: Int comparator ===== -/

theorem intLeB_trans : ∀ a b c : Int, intLeB a b = true → intLeB b c = true →
    intLeB a c = true := by
  intro a b c h1 h2
  simp [intLeB] at *
  omega

theorem intLeB_total : ∀ a b : Int, (intLeB a b || intLeB b a) = true := by
  intro a b
  simp [intLeB]
  omega

/- ===== snapshot lemmas: sorted block keys ===== -/

theorem mem_sortedKeys (b : Int) (p : List Event) :
    b ∈ sortedKeys p ↔ b ∈ p.map Event.blockNumber := by
  unfold sortedKeys
  rw [mem_dedupAdj, mem_sortBy]

theorem sortedKeys_ne_nil {p : List Event} (h : p ≠ []) : sortedKeys p ≠ [] := by
  unfold sortedKeys
  apply dedupAdj_ne_nil
  apply sortBy_ne_nil
  simpa using h

theorem sortedKeys_sorted (p : List Event) : (sortedKeys p).Pairwise (· ≤ ·) := by
  unfold sortedKeys
  have h := sortBy_pairwise intLeB intLeB_trans intLeB_total (p.map Event.blockNumber)
  have h2 := dedupAdj_pairwise intLeB (fun a b : Int => intLeB a b = true ∧ a ≠ b)
    (fun a b h1 h2 => by simp [intLeB] at h1 h2; omega)
    (fun a b h1 h2 => ⟨h1, h2⟩) h
  refine h2.imp ?_
  intro a b hab
  have := hab.1
  simpa [intLeB] using this

theorem headD_sortedKeys_le {p : List Event} (hne : p ≠ []) :
    (∀ b ∈ p.map Event.blockNumber, (sortedKeys p).headD 0 ≤ b) ∧
      (sortedKeys p).headD 0 ∈ p.map Event.blockNumber := by
  have hkne : sortedKeys p ≠ [] := sortedKeys_ne_nil hne
  constructor
  · intro b hb
    have hbk : b ∈ sortedKeys p := (mem_sortedKeys b p).mpr hb
    exact pairwise_headD_le (· ≤ ·) (fun a => le_refl a) (sortedKeys_sorted p) 0 b hbk
  · exact (mem_sortedKeys _ p).mp (headD_mem hkne 0)

theorem getLastD_sortedKeys_ge {p : List Event} (hne : p ≠ []) :
    (∀ b ∈ p.map Event.blockNumber, b ≤ (sortedKeys p).getLastD 0) ∧
      (sortedKeys p).getLastD 0 ∈ p.map Event.blockNumber := by
  have hkne : sortedKeys p ≠ [] := sortedKeys_ne_nil hne
  constructor
  · intro b hb
    have hbk : b ∈ sortedKeys p := (mem_sortedKeys b p).mpr hb
    exact pairwise_le_getLastD (· ≤ ·) (fun a => le_refl a) (sortedKeys_sorted p) 0 b hbk
  · exact (mem_sortedKeys _ p).mp (getLastD_mem hkne 0)

/- ===== snapshot lemmas: per-block dedup ===== -/

theorem latestInBlock_mem {g : List Event} (h : g ≠ []) : latestInBlock g ∈ g := by
  unfold latestInBlock
  have hne : sortBy liLeB g ≠ [] := sortBy_ne_nil liLeB h
  exact (mem_sortBy liLeB _ g).mp (getLastD_mem hne defaultEvent)

theorem filter_bn_ne_nil {p : List Event} {b : Int} (hb : b ∈ p.map Event.blockNumber) :
    p.filter (fun ev => ev.blockNumber == b) ≠ [] := by
  rw [List.mem_map] at hb
  obtain ⟨x, hx, hxb⟩ := hb
  intro h0
  have : x ∈ p.filter (fun ev => ev.blockNumber == b) :=
    List.mem_filter.mpr ⟨hx, by simp [hxb]⟩
  rw [h0] at this
  exact (List.not_mem_nil x) this

theorem latestInBlock_filter_props {p : List Event} {b : Int}
    (hb : b ∈ p.map Event.blockNumber) :
    (latestInBlock (p.filter (fun ev => ev.blockNumber == b))).blockNumber = b ∧
      latestInBlock (p.filter (fun ev => ev.blockNumber == b)) ∈ p := by
  have hne := filter_bn_ne_nil hb
  have hmem := latestInBlock_mem hne
  rcases List.mem_filter.mp hmem with ⟨hmp, hprop⟩
  exact ⟨by simpa using hprop, hmp⟩

theorem dedupByBlock_ne_nil {p : List Event} (h : p ≠ []) : dedupByBlock p ≠ [] := by
  unfold dedupByBlock
  intro h0
  exact sortedKeys_ne_nil h (List.map_eq_nil.mp h0)

theorem dedupByBlock_headD {p : List Event} (h : p ≠ []) :
    (dedupByBlock p).headD defaultEvent =
      latestInBlock (p.filter (fun ev => ev.blockNumber == (sortedKeys p).headD 0)) := by
  unfold dedupByBlock
  exact headD_map _ (sortedKeys_ne_nil h) defaultEvent 0

theorem dedupByBlock_getLastD {p : List Event} (h : p ≠ []) :
    (dedupByBlock p).getLastD defaultEvent =
      latestInBlock (p.filter (fun ev => ev.blockNumber == (sortedKeys p).getLastD 0)) := by
  unfold dedupByBlock
  exact getLastD_map _ (sortedKeys_ne_nil h) defaultEvent 0

theorem mem_dedupByBlock {p : List Event} {x : Event} (hx : x ∈ dedupByBlock p) :
    x ∈ p := by
  unfold dedupByBlock at hx
  rw [List.mem_map] at hx
  obtain ⟨b, hb, hxb⟩ := hx
  have hbm : b ∈ p.map Event.blockNumber := (mem_sortedKeys b p).mp hb
  rw [← hxb]
  exact (latestInBlock_filter_props hbm).2

/- ===== snapshot lemmas: step-function weight telescope ===== -/

theorem totalWeight_cons (sg : Segment) (segs : List Segment) :
    totalWeight (sg :: segs) = sg.weight + totalWeight segs := by
  unfold totalWeight
  rw [List.map_cons, sumAll_cons]

theorem totalWeight_toStepFunction (s e : Int) : ∀ (l : List Event), l ≠ [] →
    totalWeight (toStepFunction s e l) =
      withinRange s e ((l.getLastD defaultEvent).blockNumber) -
        withinRange s e ((l.headD defaultEvent).blockNumber)
  | [a], _ => by
    show totalWeight [] = _
    simp [totalWeight, sumAll_nil]
  | a :: b :: t, _ => by
    show totalWeight
        (⟨getWeightFromDuration s e b.blockNumber a.blockNumber, a.totalStake⟩ ::
          toStepFunction s e (b :: t)) = _
    rw [totalWeight_cons, totalWeight_toStepFunction s e (b :: t) (by simp)]
    have hlast : (a :: b :: t).getLastD defaultEvent = (b :: t).getLastD defaultEvent := by
      rw [List.getLastD_cons]
      exact getLastD_congr (by simp) a defaultEvent
    rw [hlast]
    show getWeightFromDuration s e b.blockNumber a.blockNumber +
        (withinRange s e (((b :: t).getLastD defaultEvent).blockNumber) -
          withinRange s e b.blockNumber) =
      withinRange s e (((b :: t).getLastD defaultEvent).blockNumber) -
        withinRange s e a.blockNumber
    unfold getWeightFromDuration
    ring

theorem appendFinal_of_ne_nil {l : List Event} (h : l ≠ []) :
    appendFinal l =
      l ++ [⟨maxSafeInteger, maxSafeInteger, (l.getLastD defaultEvent).totalStake⟩] := by
  unfold appendFinal
  cases hq : l.getLast? with
  | none =>
    exfalso
    cases l with
    | nil => exact h rfl
    | cons a t =>
      rw [List.getLast?_cons] at hq
      exact Option.noConfusion hq
  | some x =>
    rw [List.getLastD_eq_getLast?, hq]
    rfl

theorem totalWeight_dedup_append (s e : Int) (p : List Event) (hpne : p ≠ [])
    (hminle : (sortedKeys p).headD 0 ≤ s) (hse : s < e) (hemax : e ≤ maxSafeInteger) :
    totalWeight (toStepFunction s e (appendFinal (dedupByBlock p))) = e - s := by
  have hddne := dedupByBlock_ne_nil hpne
  rw [appendFinal_of_ne_nil hddne]
  rw [totalWeight_toStepFunction s e _ (by simp)]
  rw [getLastD_append_single, headD_append_left hddne]
  rw [dedupByBlock_headD hpne]
  have hmink := (headD_sortedKeys_le hpne).2
  have hbn := (latestInBlock_filter_props hmink).1
  rw [hbn]
  show withinRange s e maxSafeInteger - withinRange s e ((sortedKeys p).headD 0) = e - s
  unfold withinRange
  split_ifs <;> omega

theorem totalWeight_normalized (s e : Int) (evs : List Event) (j : Nat)
    (hs0 : 0 ≤ s) (hse : s < e) (hemax : e ≤ maxSafeInteger)
    (hj : findLastIndex (fun ev => decide (ev.blockNumber < e)) evs = some j) :
    totalWeight (toStepFunction s e
      (normalizeEvents j (findLastIndex (fun ev => decide (ev.blockNumber < s)) evs) evs)) =
      e - s := by
  obtain ⟨evj, hevj, hevjp⟩ := findLastIndex_some hj
  have hjlen : j < evs.length := (List.getElem?_eq_some.mp hevj).1
  cases hfi : findLastIndex (fun ev => decide (ev.blockNumber < s)) evs with
  | none =>
    have hp : relevantEvents j none evs = fakeEvent :: evs.take (j + 1) := by
      unfold relevantEvents jsSlice
      have h2 : j + 2 = (j + 1) + 1 := rfl
      rw [h2, List.take_succ_cons, List.drop_zero]
    unfold normalizeEvents
    rw [hp]
    apply totalWeight_dedup_append s e _ (by simp) _ hse hemax
    have hfm : (-1 : Int) ∈ (fakeEvent :: evs.take (j + 1)).map Event.blockNumber :=
      List.mem_map.mpr ⟨fakeEvent, List.mem_cons_self _ _, rfl⟩
    have := (headD_sortedKeys_le (p := fakeEvent :: evs.take (j + 1)) (by simp)).1 (-1) hfm
    omega
  | some i =>
    obtain ⟨evi, hevi, hevip⟩ := findLastIndex_some hfi
    have hevis : evi.blockNumber < s := by simpa using hevip
    have hij : i ≤ j := by
      refine findLastIndex_ge hj i evi hevi ?_
      simp only [decide_eq_true_eq]
      omega
    have hilen : i < evs.length := (List.getElem?_eq_some.mp hevi).1
    have hp : relevantEvents j (some i) evs = (evs.take (j + 1)).drop i := rfl
    have hpne : relevantEvents j (some i) evs ≠ [] := by
      rw [hp]
      intro h0
      have := congrArg List.length h0
      simp [List.length_drop, List.length_take] at this
      omega
    have hevim : evi ∈ relevantEvents j (some i) evs := by
      rw [hp, List.mem_iff_getElem?]
      refine ⟨0, ?_⟩
      rw [List.getElem?_drop, List.getElem?_take]
      rw [if_pos (by omega)]
      simpa using hevi
    unfold normalizeEvents
    apply totalWeight_dedup_append s e _ hpne _ hse hemax
    have hbm : evi.blockNumber ∈ (relevantEvents j (some i) evs).map Event.blockNumber :=
      List.mem_map.mpr ⟨evi, hevim, rfl⟩
    have := (headD_sortedKeys_le hpne).1 evi.blockNumber hbm
    omega

theorem relevantEvents_ne_nil (s e : Int) (evs : List Event) (j : Nat)
    (hj : findLastIndex (fun ev => decide (ev.blockNumber < e)) evs = some j) (hse : s < e) :
    relevantEvents j (findLastIndex (fun ev => decide (ev.blockNumber < s)) evs) evs ≠ [] := by
  obtain ⟨evj, hevj, _⟩ := findLastIndex_some hj
  have hjlen : j < evs.length := (List.getElem?_eq_some.mp hevj).1
  cases hfi : findLastIndex (fun ev => decide (ev.blockNumber < s)) evs with
  | none =>
    unfold relevantEvents jsSlice
    have h2 : j + 2 = (j + 1) + 1 := rfl
    rw [h2, List.take_succ_cons, List.drop_zero]
    simp
  | some i =>
    obtain ⟨evi, hevi, hevip⟩ := findLastIndex_some hfi
    have hevis : evi.blockNumber < s := by simpa using hevip
    have hij : i ≤ j := by
      refine findLastIndex_ge hj i evi hevi ?_
      simp only [decide_eq_true_eq]
      omega
    show (evs.take (j + 1)).drop i ≠ []
    intro h0
    have := congrArg List.length h0
    simp [List.length_drop, List.length_take] at this
    omega

theorem normalizeEvents_length_ge (j : Nat) (fi : Option Nat) (evs : List Event)
    (hpne : relevantEvents j fi evs ≠ []) : 2 ≤ (normalizeEvents j fi evs).length := by
  unfold normalizeEvents
  rw [appendFinal_of_ne_nil (dedupByBlock_ne_nil hpne)]
  rw [List.length_append]
  have h1 : 0 < (dedupByBlock (relevantEvents j fi evs)).length :=
    List.length_pos.mpr (dedupByBlock_ne_nil hpne)
  simp only [List.length_cons, List.length_nil]
  omega

theorem stepSegments_totalWeight (s e : Int) (evs : List Event)
    (hs0 : 0 ≤ s) (hse : s < e) (hemax : e ≤ maxSafeInteger)
    (hex : ∃ ev ∈ evs, ev.blockNumber < e) :
    totalWeight (stepSegments s e evs) = e - s := by
  obtain ⟨ev, hmem, hlt⟩ := hex
  cases hj : findLastIndex (fun x => decide (x.blockNumber < e)) evs with
  | none => exact absurd hj (findLastIndex_ne_none hmem (by simpa using hlt))
  | some j =>
    unfold stepSegments
    rw [hj]
    exact totalWeight_normalized s e evs j hs0 hse hemax hj

/- ===== claim C2 ===== -/

/-- C2 counterexample: an address whose only event sits exactly at the
interval end has an event at-or-before the end, yet the code treats only
events strictly before the end as relevant: it produces no step segments, so
their weights sum to 0 rather than end - start. -/
theorem claim2_counterexample :
    (10 : Int) ≤ 10 ∧
      ¬ totalWeight (stepSegments 0 10 [⟨10, 0, 7⟩]) = 10 - 0 := by
  constructor
  · decide
  · decide

/-- C2 amended: for any address with at least one event strictly before the
interval end, the weights of the StepSegments built for [start, end) sum to
exactly end - start (with 0 ≤ start < end and end within the JavaScript safe
integer range used by the closing sentinel event). -/
theorem claim2_weights_sum (s e : Int) (evs : List Event)
    (hs0 : 0 ≤ s) (hse : s < e) (hemax : e ≤ maxSafeInteger)
    (hex : ∃ ev ∈ evs, ev.blockNumber < e) :
    totalWeight (stepSegments s e evs) = e - s :=
  stepSegments_totalWeight s e evs hs0 hse hemax hex

/-- C2 witness: the spec scenario with two events inside [0, 30). -/
theorem claim2_witness :
    totalWeight (stepSegments 0 30 [⟨10, 0, 100⟩, ⟨20, 1, 300⟩]) = 30 - 0 :=
  claim2_weights_sum 0 30 [⟨10, 0, 100⟩, ⟨20, 1, 300⟩]
    (by decide) (by decide) (by decide) (by decide)

/- ===== claim C9 ===== -/

/-- C9: the weighted-average division is never reached with a zero divisor:
with at least one event strictly before the interval end the step-segment
weights passed to getWeightedAverage sum to the nonzero interval width, an
address with no such event gets average exactly zero without any division,
and in all cases getAverageStake returns a value (never the division-by-zero
error). -/
theorem claim9_division_safe (s e : Int) (evs : List Event)
    (hs0 : 0 ≤ s) (hse : s < e) (hemax : e ≤ maxSafeInteger) :
    ((∃ ev ∈ evs, ev.blockNumber < e) → totalWeight (stepSegments s e evs) ≠ 0) ∧
      ((∀ ev ∈ evs, ¬ ev.blockNumber < e) → getAverageStake s e evs = some 0) ∧
      (getAverageStake s e evs).isSome = true := by
  refine ⟨?_, ?_, ?_⟩
  · intro hex
    rw [stepSegments_totalWeight s e evs hs0 hse hemax hex]
    omega
  · intro hall
    have hnone : findLastIndex (fun ev => decide (ev.blockNumber < e)) evs = none := by
      cases hq : findLastIndex (fun ev => decide (ev.blockNumber < e)) evs with
      | none => rfl
      | some j =>
        exfalso
        obtain ⟨x, hx, hpx⟩ := findLastIndex_some hq
        have hxm : x ∈ evs := by
          rw [List.mem_iff_getElem?]
          exact ⟨j, hx⟩
        exact hall x hxm (by simpa using hpx)
    unfold getAverageStake
    rw [hnone]
  · cases hj : findLastIndex (fun ev => decide (ev.blockNumber < e)) evs with
    | none =>
      unfold getAverageStake
      rw [hj]
      rfl
    | some j =>
      have hpne := relevantEvents_ne_nil s e evs j hj hse
      have hlen := normalizeEvents_length_ge j
        (findLastIndex (fun ev => decide (ev.blockNumber < s)) evs) evs hpne
      have h0 : ¬ (normalizeEvents j
          (findLastIndex (fun ev => decide (ev.blockNumber < s)) evs) evs).length = 0 := by
        omega
      have h1 : ¬ (normalizeEvents j
          (findLastIndex (fun ev => decide (ev.blockNumber < s)) evs) evs).length = 1 := by
        omega
      unfold getAverageStake
      rw [hj]
      show (if (normalizeEvents j
          (findLastIndex (fun ev => decide (ev.blockNumber < s)) evs) evs).length = 0
        then some 0
        else if (normalizeEvents j
          (findLastIndex (fun ev => decide (ev.blockNumber < s)) evs) evs).length = 1
        then some ((normalizeEvents j
          (findLastIndex (fun ev => decide (ev.blockNumber < s)) evs) evs).headD
            defaultEvent).totalStake
        else getWeightedAverage (toStepFunction s e (normalizeEvents j
          (findLastIndex (fun ev => decide (ev.blockNumber < s)) evs) evs))).isSome = true
      rw [if_neg h0, if_neg h1]
      unfold getWeightedAverage bnDiv
      rw [totalWeight_normalized s e evs j hs0 hse hemax hj]
      rw [if_neg (by omega : ¬ e - s = 0)]
      rfl

/-- C9 witness: evaluated on an address with one event before the end and on
an address whose only event lies at the end. -/
theorem claim9_witness :
    totalWeight (stepSegments 0 10 [⟨3, 0, 5⟩]) ≠ 0 ∧
      getAverageStake 0 10 [⟨20, 0, 5⟩] = some 0 ∧
      (getAverageStake 0 10 [⟨3, 0, 5⟩]).isSome = true :=
  ⟨(claim9_division_safe 0 10 [⟨3, 0, 5⟩] (by decide) (by decide) (by decide)).1 (by decide),
    (claim9_division_safe 0 10 [⟨20, 0, 5⟩] (by decide) (by decide) (by decide)).2.1
      (by decide),
    (claim9_division_safe 0 10 [⟨3, 0, 5⟩] (by decide) (by decide) (by decide)).2.2⟩

/- ===== snapshot lemmas: constant-value interval ===== -/

theorem getLast?_mem {α : Type} {l : List α} {x : α} (h : l.getLast? = some x) : x ∈ l := by
  rw [List.getLast?_eq_getElem?] at h
  rw [List.mem_iff_getElem?]
  exact ⟨l.length - 1, h⟩

theorem withinRange_of_le {s e x : Int} (hx : x ≤ s) (hse : s ≤ e) :
    withinRange s e x = s := by
  unfold withinRange
  split_ifs <;> omega

theorem pairwise_li_of_same_bn (b : Int) : ∀ {l : List Event}, l.Pairwise eventLexLe →
    (∀ x ∈ l, x.blockNumber = b) → l.Pairwise (fun x y => liLeB x y = true)
  | [], _, _ => List.Pairwise.nil
  | a :: t, h, hb => by
    rcases List.pairwise_cons.mp h with ⟨ha, ht⟩
    refine List.pairwise_cons.mpr
      ⟨?_, pairwise_li_of_same_bn b ht (fun x hx => hb x (List.mem_cons_of_mem a hx))⟩
    intro x hx
    have h1 := ha x hx
    have hab : a.blockNumber = b := hb a (List.mem_cons_self a t)
    have hxb : x.blockNumber = b := hb x (List.mem_cons_of_mem a hx)
    rcases h1 with hlt | ⟨_, hle⟩
    · exfalso
      omega
    · simpa [liLeB] using hle

theorem sorted_bn_le_of_le {evs : List Event} (hsorted : evs.Pairwise eventLexLe) {j : Nat}
    {ev : Event} (hev : evs[j]? = some ev) :
    ∀ (k : Nat) (x : Event), evs[k]? = some x → k ≤ j → x.blockNumber ≤ ev.blockNumber := by
  intro k x hk hkj
  rcases Nat.lt_or_ge j k with hlt | hge
  · omega
  · rcases Nat.lt_or_ge k j with hlt | hge2
    · obtain ⟨hklen, hkx⟩ := List.getElem?_eq_some.mp hk
      obtain ⟨hjlen, hjx⟩ := List.getElem?_eq_some.mp hev
      have hp := List.pairwise_iff_getElem.mp hsorted k j hklen hjlen hlt
      rw [hkx, hjx] at hp
      rcases hp with h | ⟨h, _⟩
      · omega
      · omega
    · have hkj2 : k = j := by omega
      subst hkj2
      rw [hev] at hk
      have hx : ev = x := Option.some_inj.mp hk
      rw [← hx]

theorem stepFunction_totals_const (s e : Int) : ∀ (dd : List Event), dd ≠ [] →
    (∀ x ∈ dd, withinRange s e x.blockNumber = s) → ∀ (fin : Event),
      withinRange s e fin.blockNumber = e →
      sumAll ((toStepFunction s e (dd ++ [fin])).map (fun sg => sg.value * sg.weight)) =
          (dd.getLastD defaultEvent).totalStake * (e - s) ∧
        totalWeight (toStepFunction s e (dd ++ [fin])) = e - s
  | [a], _, hcl, fin, hfin => by
    have hca : withinRange s e a.blockNumber = s := hcl a (by simp)
    show sumAll ((toStepFunction s e [a, fin]).map (fun sg => sg.value * sg.weight)) = _ ∧
      totalWeight (toStepFunction s e [a, fin]) = _
    show sumAll
        ([(⟨getWeightFromDuration s e fin.blockNumber a.blockNumber,
            a.totalStake⟩ : Segment)].map (fun sg => sg.value * sg.weight)) = _ ∧
      totalWeight
        [(⟨getWeightFromDuration s e fin.blockNumber a.blockNumber,
            a.totalStake⟩ : Segment)] = _
    unfold getWeightFromDuration
    rw [hca, hfin]
    constructor
    · rw [List.map_cons, List.map_nil, sumAll_cons, sumAll_nil]
      show a.totalStake * (e - s) + 0 = ([a].getLastD defaultEvent).totalStake * (e - s)
      simp
    · rw [totalWeight_cons]
      show (e - s) + totalWeight [] = e - s
      simp [totalWeight, sumAll_nil]
  | a :: b :: t, _, hcl, fin, hfin => by
    have hca : withinRange s e a.blockNumber = s := hcl a (by simp)
    have hcb : withinRange s e b.blockNumber = s := hcl b (by simp)
    obtain ⟨hrecv, hrecw⟩ := stepFunction_totals_const s e (b :: t) (by simp)
      (fun x hx => hcl x (List.mem_cons_of_mem a hx)) fin hfin
    have hshape : (a :: b :: t) ++ [fin] = a :: ((b :: t) ++ [fin]) := rfl
    rw [hshape]
    have hstep : toStepFunction s e (a :: ((b :: t) ++ [fin])) =
        (⟨getWeightFromDuration s e b.blockNumber a.blockNumber, a.totalStake⟩ : Segment) ::
          toStepFunction s e ((b :: t) ++ [fin]) := rfl
    rw [hstep]
    have hw0 : getWeightFromDuration s e b.blockNumber a.blockNumber = 0 := by
      unfold getWeightFromDuration
      rw [hca, hcb]
      ring
    have hlastshift : ((a :: b :: t).getLastD defaultEvent).totalStake =
        ((b :: t).getLastD defaultEvent).totalStake := by
      rw [List.getLastD_cons]
      rw [getLastD_congr (by simp : (b :: t) ≠ []) a defaultEvent]
    constructor
    · rw [List.map_cons, sumAll_cons, hrecv, hlastshift, hw0]
      show a.totalStake * 0 + ((b :: t).getLastD defaultEvent).totalStake * (e - s) = _
      ring
    · rw [totalWeight_cons, hrecw]
      show getWeightFromDuration s e b.blockNumber a.blockNumber + (e - s) = e - s
      rw [hw0]
      ring

theorem averageStake_const_core (s e : Int) (p : List Event) (ev : Event)
    (hpne : p ≠ []) (hse : s < e) (hemax : e ≤ maxSafeInteger)
    (hml : ∀ x ∈ p, x.blockNumber ≤ ev.blockNumber) (hbnle : ev.blockNumber ≤ s)
    (hplex : p.Pairwise eventLexLe) (hlast : p.getLast? = some ev) :
    2 ≤ (appendFinal (dedupByBlock p)).length ∧
      getWeightedAverage (toStepFunction s e (appendFinal (dedupByBlock p))) =
        some ev.totalStake := by
  have hddne := dedupByBlock_ne_nil hpne
  have hevm : ev ∈ p := getLast?_mem hlast
  have hmaxkey : (sortedKeys p).getLastD 0 = ev.blockNumber := by
    have h1 := (getLastD_sortedKeys_ge hpne).1 ev.blockNumber
      (List.mem_map.mpr ⟨ev, hevm, rfl⟩)
    obtain ⟨x, hx, hxb⟩ := List.mem_map.mp (getLastD_sortedKeys_ge hpne).2
    have h2 := hml x hx
    omega
  have hg : (p.filter (fun x => x.blockNumber == ev.blockNumber)).getLast? = some ev :=
    getLast?_filter _ p ev hlast (by simp)
  have hgsorted : (p.filter (fun x => x.blockNumber == ev.blockNumber)).Pairwise
      (fun x y => liLeB x y = true) := by
    refine pairwise_li_of_same_bn ev.blockNumber
      (List.Pairwise.sublist (List.filter_sublist p) hplex) ?_
    intro x hx
    have := List.of_mem_filter hx
    simpa using this
  have hlatest : latestInBlock (p.filter (fun x => x.blockNumber == ev.blockNumber)) = ev := by
    unfold latestInBlock
    rw [sortBy_of_sorted hgsorted]
    rw [List.getLastD_eq_getLast?, hg]
    rfl
  have hddlast : (dedupByBlock p).getLastD defaultEvent = ev := by
    rw [dedupByBlock_getLastD hpne, hmaxkey, hlatest]
  have hcl : ∀ x ∈ dedupByBlock p, withinRange s e x.blockNumber = s := by
    intro x hx
    have h1 := hml x (mem_dedupByBlock hx)
    exact withinRange_of_le (by omega) (by omega)
  have hfincl :
      withinRange s e
        (⟨maxSafeInteger, maxSafeInteger, ev.totalStake⟩ : Event).blockNumber = e := by
    show withinRange s e maxSafeInteger = e
    unfold withinRange
    split_ifs <;> omega
  obtain ⟨hvw, hw⟩ := stepFunction_totals_const s e (dedupByBlock p) hddne hcl
    ⟨maxSafeInteger, maxSafeInteger, ev.totalStake⟩ hfincl
  constructor
  · rw [appendFinal_of_ne_nil hddne, List.length_append]
    have := List.length_pos.mpr hddne
    simp only [List.length_cons, List.length_nil]
    omega
  · rw [appendFinal_of_ne_nil hddne, hddlast]
    unfold getWeightedAverage bnDiv
    rw [hw, hvw, hddlast]
    rw [if_neg (by omega : ¬ e - s = 0)]
    rw [Int.mul_tdiv_cancel ev.totalStake (by omega : e - s ≠ 0)]

theorem relevant_facts_some (s e : Int) (evs : List Event) (j i : Nat) (ev : Event)
    (hsorted : evs.Pairwise eventLexLe)
    (hj : findLastIndex (fun x => decide (x.blockNumber < e)) evs = some j)
    (hfi : findLastIndex (fun x => decide (x.blockNumber < s)) evs = some i)
    (hev : evs[j]? = some ev) (hse : s < e) :
    (∀ x ∈ relevantEvents j (some i) evs, x.blockNumber ≤ ev.blockNumber) ∧
      (relevantEvents j (some i) evs).Pairwise eventLexLe ∧
      (relevantEvents j (some i) evs).getLast? = some ev := by
  obtain ⟨evi, hevi, hevip⟩ := findLastIndex_some hfi
  have hevis : evi.blockNumber < s := by simpa using hevip
  have hij : i ≤ j := by
    refine findLastIndex_ge hj i evi hevi ?_
    simp only [decide_eq_true_eq]
    omega
  have hjlen : j < evs.length := (List.getElem?_eq_some.mp hev).1
  refine ⟨?_, ?_, ?_⟩
  · intro x hx
    obtain ⟨k, hik, hkj1, hkx⟩ := mem_jsSlice hx
    exact sorted_bn_le_of_le hsorted hev k x hkx (by omega)
  · exact List.Pairwise.sublist
      (List.Sublist.trans (List.drop_sublist i (evs.take (j + 1)))
        (List.take_sublist (j + 1) evs)) hsorted
  · show ((evs.take (j + 1)).drop i).getLast? = some ev
    rw [List.getLast?_eq_getElem?]
    have hlen : ((evs.take (j + 1)).drop i).length = j + 1 - i := by
      simp only [List.length_drop, List.length_take]
      omega
    rw [hlen, List.getElem?_drop, List.getElem?_take]
    rw [show i + (j + 1 - i - 1) = j from by omega]
    rw [if_pos (by omega : j < j + 1)]
    exact hev

theorem relevant_facts_none (s e : Int) (evs : List Event) (j : Nat) (ev : Event)
    (hsorted : evs.Pairwise eventLexLe) (hs0 : 0 ≤ s)
    (hj : findLastIndex (fun x => decide (x.blockNumber < e)) evs = some j)
    (hfi : findLastIndex (fun x => decide (x.blockNumber < s)) evs = none)
    (hev : evs[j]? = some ev) (hse : s < e) :
    (∀ x ∈ relevantEvents j none evs, x.blockNumber ≤ ev.blockNumber) ∧
      (relevantEvents j none evs).Pairwise eventLexLe ∧
      (relevantEvents j none evs).getLast? = some ev := by
  have hjlen : j < evs.length := (List.getElem?_eq_some.mp hev).1
  have hevm : ev ∈ evs := by
    rw [List.mem_iff_getElem?]
    exact ⟨j, hev⟩
  have hevge : ¬ ev.blockNumber < s := by
    have := findLastIndex_none hfi ev hevm
    simpa using this
  have hp : relevantEvents j none evs = fakeEvent :: evs.take (j + 1) := by
    unfold relevantEvents jsSlice
    have h2 : j + 2 = (j + 1) + 1 := rfl
    rw [h2, List.take_succ_cons, List.drop_zero]
  have htne : evs.take (j + 1) ≠ [] := by
    intro h0
    have := congrArg List.length h0
    simp only [List.length_take, List.length_nil] at this
    omega
  refine ⟨?_, ?_, ?_⟩
  · intro x hx
    rw [hp] at hx
    rcases List.mem_cons.mp hx with hxf | hxt
    · rw [hxf]
      show (-1 : Int) ≤ ev.blockNumber
      omega
    · have hxt2 : x ∈ jsSlice 0 (j + 1) evs := by
        unfold jsSlice
        rw [List.drop_zero]
        exact hxt
      obtain ⟨k, _, hkj1, hkx⟩ := mem_jsSlice hxt2
      exact sorted_bn_le_of_le hsorted hev k x hkx (by omega)
  · rw [hp]
    refine List.pairwise_cons.mpr
      ⟨?_, List.Pairwise.sublist (List.take_sublist (j + 1) evs) hsorted⟩
    intro x hx
    have hxm : x ∈ evs := (List.take_sublist (j + 1) evs).subset hx
    have hxge : ¬ x.blockNumber < s := by
      have := findLastIndex_none hfi x hxm
      simpa using this
    left
    show (-1 : Int) < x.blockNumber
    omega
  · rw [hp, getLast?_cons_of_ne_nil htne]
    rw [List.getLast?_eq_getElem?]
    have hlen : (evs.take (j + 1)).length = j + 1 := by
      simp only [List.length_take]
      omega
    rw [hlen, List.getElem?_take]
    rw [show j + 1 - 1 = j from by omega]
    rw [if_pos (by omega : j < j + 1)]
    exact hev

/- ===== claim C5 ===== -/

/-- C5: when the last event strictly before the interval end lies at or
before the interval start (so nothing changes inside the interval), the
computed average equals exactly that event's value: the value is held for
the whole clamped interval width and the division cancels. -/
theorem claim5_constant_average (s e : Int) (evs : List Event) (j : Nat) (ev : Event)
    (hsorted : evs.Pairwise eventLexLe) (hs0 : 0 ≤ s) (hse : s < e)
    (hemax : e ≤ maxSafeInteger)
    (hj : findLastIndex (fun x => decide (x.blockNumber < e)) evs = some j)
    (hev : evs[j]? = some ev) (hbnle : ev.blockNumber ≤ s) :
    getAverageStake s e evs = some ev.totalStake := by
  have hpne := relevantEvents_ne_nil s e evs j hj hse
  have hfacts : (∀ x ∈ relevantEvents j
        (findLastIndex (fun x => decide (x.blockNumber < s)) evs) evs,
        x.blockNumber ≤ ev.blockNumber) ∧
      (relevantEvents j (findLastIndex (fun x => decide (x.blockNumber < s)) evs)
        evs).Pairwise eventLexLe ∧
      (relevantEvents j (findLastIndex (fun x => decide (x.blockNumber < s)) evs)
          evs).getLast? = some ev := by
    cases hfi : findLastIndex (fun x => decide (x.blockNumber < s)) evs with
    | none => exact relevant_facts_none s e evs j ev hsorted hs0 hj hfi hev hse
    | some i => exact relevant_facts_some s e evs j i ev hsorted hj hfi hev hse
  obtain ⟨hml, hplex, hlast⟩ := hfacts
  obtain ⟨hlen2, havg⟩ := averageStake_const_core s e
    (relevantEvents j (findLastIndex (fun x => decide (x.blockNumber < s)) evs) evs)
    ev hpne hse hemax hml hbnle hplex hlast
  have h0 : ¬ (normalizeEvents j
      (findLastIndex (fun x => decide (x.blockNumber < s)) evs) evs).length = 0 := by
    have : normalizeEvents j
        (findLastIndex (fun x => decide (x.blockNumber < s)) evs) evs =
      appendFinal (dedupByBlock (relevantEvents j
        (findLastIndex (fun x => decide (x.blockNumber < s)) evs) evs)) := rfl
    rw [this]
    omega
  have h1 : ¬ (normalizeEvents j
      (findLastIndex (fun x => decide (x.blockNumber < s)) evs) evs).length = 1 := by
    have : normalizeEvents j
        (findLastIndex (fun x => decide (x.blockNumber < s)) evs) evs =
      appendFinal (dedupByBlock (relevantEvents j
        (findLastIndex (fun x => decide (x.blockNumber < s)) evs) evs)) := rfl
    rw [this]
    omega
  unfold getAverageStake
  rw [hj]
  show (if (normalizeEvents j
      (findLastIndex (fun x => decide (x.blockNumber < s)) evs) evs).length = 0
    then some 0
    else if (normalizeEvents j
      (findLastIndex (fun x => decide (x.blockNumber < s)) evs) evs).length = 1
    then some ((normalizeEvents j
      (findLastIndex (fun x => decide (x.blockNumber < s)) evs) evs).headD
        defaultEvent).totalStake
    else getWeightedAverage (toStepFunction s e (normalizeEvents j
      (findLastIndex (fun x => decide (x.blockNumber < s)) evs) evs))) =
    some ev.totalStake
  rw [if_neg h0, if_neg h1]
  exact havg

/-- C5 witness: the spec scenario of a single event (position 5, value 50)
and the interval [10, 20). -/
theorem claim5_witness : getAverageStake 10 20 [⟨5, 0, 50⟩] = some 50 :=
  claim5_constant_average 10 20 [⟨5, 0, 50⟩] 0 ⟨5, 0, 50⟩
    (by decide) (by decide) (by decide) (by decide) (by decide) (by decide) (by decide)

/- ===== snapshot lemmas: allocation arithmetic ===== -/

theorem sumAll_pos : ∀ {l : List Int}, l ≠ [] → (∀ a ∈ l, 0 < a) → 0 < sumAll l
  | [], h, _ => absurd rfl h
  | [a], _, h => by
    rw [sumAll_cons, sumAll_nil]
    have := h a (by simp)
    omega
  | a :: b :: t, _, h => by
    rw [sumAll_cons]
    have h1 := h a (by simp)
    have h2 := sumAll_pos (by simp : (b :: t : List Int) ≠ [])
      (fun x hx => h x (List.mem_cons_of_mem a hx))
    omega

theorem tdiv_bounds {x T : Int} (hx : 0 ≤ x) (hT : 0 < T) :
    T * Int.tdiv x T ≤ x ∧ x ≤ T * Int.tdiv x T + (T - 1) := by
  obtain ⟨m, rfl⟩ := Int.eq_ofNat_of_zero_le hx
  obtain ⟨t, rfl⟩ := Int.eq_ofNat_of_zero_le (le_of_lt hT)
  have ht0 : 0 < t := by exact_mod_cast hT
  have hdm := Nat.div_add_mod m t
  have hmod : m % t < t := Nat.mod_lt m ht0
  have htdiv : Int.tdiv (↑m) (↑t) = ((m / t : Nat) : Int) := rfl
  rw [htdiv]
  have h1 : t * (m / t) ≤ m := Nat.le.intro hdm
  have h2 : m ≤ t * (m / t) + (t - 1) := by
    calc m = t * (m / t) + m % t := hdm.symm
      _ ≤ t * (m / t) + (t - 1) := Nat.add_le_add_left (Nat.le_pred_of_lt hmod) _
  constructor
  · exact_mod_cast h1
  · have hcast : ((t : Int) - 1) = ((t - 1 : Nat) : Int) := by
      have h3 : 1 ≤ t := ht0
      push_cast [h3]
      ring
    rw [hcast]
    exact_mod_cast h2

theorem alloc_bounds (T D : Int) (hT : 0 < T) (hD : 0 ≤ D) : ∀ (l : List Int),
    (∀ a ∈ l, 0 ≤ a) →
    ∃ cs, mapOption (getClaimValueFromAmounts D T) l = some cs ∧
      T * sumAll cs ≤ sumAll l * D ∧
      sumAll l * D ≤ T * sumAll cs + (T - 1) * l.length
  | [], _ => ⟨[], rfl, by simp [sumAll_nil], by simp [sumAll_nil]⟩
  | a :: l, h => by
    obtain ⟨cs, hcs, h1, h2⟩ := alloc_bounds T D hT hD l
      (fun x hx => h x (List.mem_cons_of_mem a hx))
    have ha : 0 ≤ a := h a (List.mem_cons_self a l)
    have haD : 0 ≤ a * D := mul_nonneg ha hD
    obtain ⟨b1, b2⟩ := tdiv_bounds haD hT
    have hfa : getClaimValueFromAmounts D T a = some (Int.tdiv (a * D) T) := by
      unfold getClaimValueFromAmounts bnDiv
      rw [if_neg (by omega : ¬ T = 0)]
    refine ⟨Int.tdiv (a * D) T :: cs, ?_, ?_, ?_⟩
    · simp only [mapOption, hfa, hcs]
    · rw [sumAll_cons, sumAll_cons]
      calc T * (Int.tdiv (a * D) T + sumAll cs)
          = T * Int.tdiv (a * D) T + T * sumAll cs := by ring
        _ ≤ a * D + sumAll l * D := add_le_add b1 h1
        _ = (a + sumAll l) * D := by ring
    · rw [sumAll_cons, sumAll_cons, List.length_cons]
      have hlen : ((l.length + 1 : Nat) : Int) = (l.length : Int) + 1 := by push_cast; ring
      rw [hlen]
      calc (a + sumAll l) * D = a * D + sumAll l * D := by ring
        _ ≤ (T * Int.tdiv (a * D) T + (T - 1)) +
            (T * sumAll cs + (T - 1) * l.length) := add_le_add b2 h2
        _ = T * (Int.tdiv (a * D) T + sumAll cs) + (T - 1) * (l.length + 1) := by ring

/- ===== claim C3 ===== -/

/-- C3 counterexample: with an empty mapping (vacuously all-positive
averages) and droppedAmount 1, no claim value is ever computed, the claim
sum is 0, and the shortfall 1 is not below the participant count 0: the
claim as stated fails for the empty mapping. -/
theorem claim3_counterexample :
    mapOption (getClaimValueFromAmounts 1 (sumAll ([] : List Int))) ([] : List Int) =
        some [] ∧
      ¬ ((1 : Int) - sumAll ([] : List Int) < ((([] : List Int)).length : Int)) := by
  constructor
  · rfl
  · decide

/-- C3 amended: for every nonempty mapping of addresses to positive averages
and non-negative droppedAmount, with totalAverage their sum, every claim
value floor(average * droppedAmount / totalAverage) is computed without
error, the claim values sum to at most droppedAmount, and the shortfall is
strictly below the number of participants. -/
theorem claim3_allocation_bounds (droppedAmount : Int) (avgs : List Int)
    (hne : avgs ≠ []) (hpos : ∀ a ∈ avgs, 0 < a) (hD : 0 ≤ droppedAmount) :
    ∃ cs, mapOption (getClaimValueFromAmounts droppedAmount (sumAll avgs)) avgs = some cs ∧
      sumAll cs ≤ droppedAmount ∧
      droppedAmount - sumAll cs < (avgs.length : Int) := by
  have hT : 0 < sumAll avgs := sumAll_pos hne hpos
  obtain ⟨cs, hcs, h1, h2⟩ := alloc_bounds (sumAll avgs) droppedAmount hT hD avgs
    (fun a ha => le_of_lt (hpos a ha))
  refine ⟨cs, hcs, ?_, ?_⟩
  · exact le_of_mul_le_mul_left h1 hT
  · have hn : 0 < (avgs.length : Int) := by exact_mod_cast List.length_pos.mpr hne
    have h3 : sumAll avgs * droppedAmount <
        sumAll avgs * (sumAll cs + avgs.length) := by
      have hstep : (sumAll avgs - 1) * avgs.length < sumAll avgs * avgs.length := by
        have : (sumAll avgs - 1) * (avgs.length : Int) =
            sumAll avgs * avgs.length - avgs.length := by ring
        omega
      calc sumAll avgs * droppedAmount
          ≤ sumAll avgs * sumAll cs + (sumAll avgs - 1) * avgs.length := h2
        _ < sumAll avgs * sumAll cs + sumAll avgs * avgs.length := by omega
        _ = sumAll avgs * (sumAll cs + avgs.length) := by ring
    have h4 := lt_of_mul_lt_mul_left h3 (le_of_lt hT)
    omega

/-- C3 witness: the spec scenario droppedAmount 1000, averages 133 and 50. -/
theorem claim3_witness :
    ∃ cs, mapOption (getClaimValueFromAmounts 1000 (sumAll [133, 50])) [133, 50] =
        some cs ∧
      sumAll cs ≤ 1000 ∧
      (1000 : Int) - sumAll cs < ((([133, 50] : List Int)).length : Int) :=
  claim3_allocation_bounds 1000 [133, 50] (by decide) (by decide) (by decide)

/- ===== claim C6 ===== -/

/-- C6: whenever the total average over all addresses is zero, snapshot
creation fails before any manifest is returned: with at least one remaining
participant the claim allocation division throws, and with no participants
the rate computation getRateWithMultiplier divides by the zero
averageTotalStaked just before the return. In neither case is an empty or
partial manifest emitted. (The error is the BigNumber division-by-zero
fault, which the spec's error taxonomy names NoParticipantsError; the model
represents any thrown error as none.) -/
theorem claim6_zero_total_aborts (H Hs : Buffer → Buffer) (mkLeaf : String → Int → Buffer)
    (droppedAmount : Int) (stakes : List (String × Int))
    (htot : sumAll (stakes.map Prod.snd) = 0) :
    createSnapshotCore H Hs mkLeaf droppedAmount stakes = none := by
  cases hst : stakes with
  | nil => rfl
  | cons p rest =>
    rw [hst] at htot
    simp only [createSnapshotCore, mapOption]
    unfold getClaimValueFromAmounts bnDiv
    rw [if_pos htot]
    rfl

/-- C6 witness: the abort evaluated both with no participants and with two
participants whose averages cancel to a zero total. -/
theorem claim6_witness :
    createSnapshotCore exH exHs exMkLeaf 5 [] = none ∧
      createSnapshotCore exH exHs exMkLeaf 5 [("a", 3), ("b", -3)] = none :=
  ⟨claim6_zero_total_aborts exH exHs exMkLeaf 5 [] (by decide),
    claim6_zero_total_aborts exH exHs exMkLeaf 5 [("a", 3), ("b", -3)] (by decide)⟩

/- ===== claim C7 ===== -/

/-- C7 counterexample: an event carrying the negative value -5 is not
rejected by normalization: it is retained unchanged and even flows through
the whole average computation, and an event with a missing value is
silently coerced to zero instead of raising a MalformedEventError. -/
theorem claim7_counterexample :
    withRelevantProps ⟨1, 0, some (-5)⟩ = (⟨1, 0, -5⟩ : Event) ∧
      withRelevantProps ⟨2, 5, none⟩ = (⟨2, 5, 0⟩ : Event) ∧
      getAverageStake 0 10 [withRelevantProps ⟨1, 0, some (-5)⟩] = some (-4) := by
  refine ⟨rfl, rfl, ?_⟩
  decide

/-- C7 amended: event normalization is total and never rejects by value: a
non-positive parsed value is retained unchanged and produces the
corresponding (possibly negative) weighted average, and a missing value is
silently coerced to zero. -/
theorem claim7_no_rejection (v : Int) (hv : v ≤ 0) :
    withRelevantProps ⟨1, 0, some v⟩ = (⟨1, 0, v⟩ : Event) ∧
      (∀ r : RawEvent, r.newTotalStake = none → (withRelevantProps r).totalStake = 0) ∧
      getAverageStake 0 10 [withRelevantProps ⟨1, 0, some v⟩] =
        some (Int.tdiv (v * 9) 10) := by
  refine ⟨rfl, ?_, ?_⟩
  · intro r h
    unfold withRelevantProps
    rw [h]
    rfl
  · have hcomp : getAverageStake 0 10 [(⟨1, 0, v⟩ : Event)] =
        some (Int.tdiv (0 + 0 * 1 + v * 9) 10) := rfl
    have harith : (0 : Int) + 0 * 1 + v * 9 = v * 9 := by ring
    rw [harith] at hcomp
    exact hcomp

/-- C7 witness: the amended statement evaluated at the value -5. -/
theorem claim7_witness :
    withRelevantProps ⟨1, 0, some (-5)⟩ = (⟨1, 0, -5⟩ : Event) ∧
      (∀ r : RawEvent, r.newTotalStake = none → (withRelevantProps r).totalStake = 0) ∧
      getAverageStake 0 10 [withRelevantProps ⟨1, 0, some (-5)⟩] =
        some (Int.tdiv ((-5) * 9) 10) :=
  claim7_no_rejection (-5) (by decide)

end PnkDrop
